import Mathlib

/-!
Shallow embedding of the block-chunked dataset store of `machine-academy`
(`src/data/mod.rs`): the builder `create_dataset` and the LRU block cache
`AcademyDataset` (reader), together with theorems checking the
specification's claims against this embedding.

Conventions of the embedding:
* Items of the dataset have an abstract type `α`; a deterministic generator
  is a function `g : Nat → α` giving the i-th item it produces, and the
  generator's mutable state is the position (number of items produced or
  skipped so far).  `DataGen::gen` returns `g pos` and advances to `pos + 1`;
  `skip n` advances by `n`.  Both generator variants behave identically in
  this sequential embedding; block bodies are generated in item order
  (the `DataGenerator::Mut` / exclusive path of the source).
* The dataset directory is a `DataDir`: the `config.dat` file (absent,
  present-but-undeserializable, or a valid manifest) plus the `{i}.slice`
  files as an association list from block index to the decoded item list.
* `bincode::serialized_size(&first_block)` is abstracted as a function
  `ssize : Nat → Nat` giving the serialized size of the first `n`
  generated items (the staging vector of the size-probing loop).
* Rust panics (`unwrap`, remainder by zero, arithmetic underflow) are
  explicit outcomes: `BuildOut.panicked` for the builder, `Except` for the
  reader's `get`.
-/

namespace MachineAcademy

/-- The persisted manifest, `AcademyDatasetConfig` in `src/data/mod.rs`. -/
structure AcademyDatasetConfig where
  block_memory_size : Nat
  block_count : Nat
  block_size : Nat
  length : Nat
deriving DecidableEq

/-- The state of the `config.dat` file in a dataset directory: absent,
present but not deserializable as a manifest, or a valid manifest. -/
inductive ConfigFile where
  | missing
  | corrupt
  | valid (c : AcademyDatasetConfig)
deriving DecidableEq

/-- Contents of a dataset directory: the `config.dat` file and the
`{i}.slice` files (association list from block index to decoded items). -/
structure DataDir (α : Type) where
  configFile : ConfigFile
  slices : List (Nat × List α)
deriving DecidableEq

/-- A directory with no config and no slice files. -/
def cleanDir (α : Type) : DataDir α := ⟨ConfigFile.missing, []⟩

/-- Look up the contents of `{i}.slice`, `none` when the file is absent. -/
def sliceLookup (d : List (Nat × List α)) (i : Nat) : Option (List α) :=
  (d.find? (fun p => p.1 == i)).map Prod.snd

/-- Remove `{i}.slice` (`std::fs::remove_file`). -/
def sliceErase (d : List (Nat × List α)) (i : Nat) : List (Nat × List α) :=
  d.filter (fun p => p.1 != i)

/-- Create-or-truncate write of `{i}.slice` (`File::create` + serialize). -/
def sliceWrite (d : List (Nat × List α)) (i : Nat) (v : List α) :
    List (Nat × List α) :=
  (i, v) :: sliceErase d i

/-- A file operation performed by the builder, recorded in order. -/
inductive FileOp (α : Type) where
  | writeSlice (i : Nat) (items : List α)
  | writeConfig (c : AcademyDatasetConfig)
  | deleteSlice (i : Nat)
  | deleteConfig
deriving DecidableEq

/-- A Rust panic inside `create_dataset`: remainder by zero
(`(length - block_size) % block_size` with `block_size = 0`), or `usize`
subtraction underflow (`length - block_size` with `block_size > length`). -/
inductive BuildPanic where
  | modZero
  | subUnderflow
deriving DecidableEq

/-- Result of a `create_dataset` call: final directory contents, final
generator position, the file operations performed (in order), and whether
the call panicked (with directory/ops/position as of the panic). -/
structure BuildOut (α : Type) where
  dir : DataDir α
  pos : Nat
  ops : List (FileOp α)
  panicked : Option BuildPanic
deriving DecidableEq

/-- The size-probing loop of a fresh build (`src/data/mod.rs` lines
160-172): produce items one at a time, incrementing `block_size`, until
`length` items were produced or the staged serialized size reaches
`block_memory_size`.  `fuel` is the number of loop iterations left and
`bs` the count so far; the result is the derived `block_size`. -/
def probeBlockSize (ssize : Nat → Nat) (budget : Nat) : Nat → Nat → Nat
  | 0, bs => bs
  | fuel + 1, bs =>
    if budget ≤ ssize (bs + 1) then bs + 1
    else probeBlockSize ssize budget fuel (bs + 1)

/-- State threaded through the phases of `create_dataset`. -/
structure BuildSt (α : Type) where
  dir : DataDir α
  pos : Nat
  ops : List (FileOp α)

/-- The full-block loop of `create_dataset` (lines 246-275), iterating over
block indices `l`: on a resume, a block whose file exists is skipped
(advancing the generator by `block_size`); otherwise `block_size` items are
generated and the block is written. -/
def writeFullBlocks (g : Nat → α) (resume : Bool) (bs : Nat) :
    List Nat → BuildSt α → BuildSt α
  | [], st => st
  | i :: rest, st =>
    if resume && (sliceLookup st.dir.slices i).isSome then
      writeFullBlocks g resume bs rest ⟨st.dir, st.pos + bs, st.ops⟩
    else
      let blk := (List.range' st.pos bs).map g
      writeFullBlocks g resume bs rest
        ⟨⟨st.dir.configFile, sliceWrite st.dir.slices i blk⟩, st.pos + bs,
          st.ops ++ [FileOp.writeSlice i blk]⟩

/-- One iteration budget per possibly-deletable file.  The cleanup loop of
`create_dataset` deletes `{i}.slice` and advances while the file exists;
every iteration removes one present file, so it runs at most
`d.length` times — `d.length + 1` budget makes the structural recursion
below exact (the out-of-budget branch is unreachable). -/
def cleanupSlicesAux : Nat → List (Nat × List α) → Nat →
    List (Nat × List α) × List (FileOp α)
  | 0, d, _ => (d, [])
  | fuel + 1, d, i =>
    if (sliceLookup d i).isSome then
      let res := cleanupSlicesAux fuel (sliceErase d i) (i + 1)
      (res.1, FileOp.deleteSlice i :: res.2)
    else
      (d, [])

/-- The stray-file cleanup loop of `create_dataset` (lines 230-244): delete
`{i}.slice`, `{i+1}.slice`, ... while the file exists, stopping at the first
absent index.  Returns the remaining slices and the delete operations. -/
def cleanupSlices (d : List (Nat × List α)) (i : Nat) :
    List (Nat × List α) × List (FileOp α) :=
  cleanupSlicesAux (d.length + 1) d i

/-- The phases of `create_dataset` shared by fresh build and resume
(lines 207-275): optional small (remainder) block, stray-file cleanup,
then the full blocks `1..=remaining_block_count`. -/
def buildTail (g : Nat → α) (resume : Bool)
    (bs small remaining bc : Nat) (st : BuildSt α) : BuildOut α :=
  let st1 : BuildSt α :=
    if 0 < small then
      let p := remaining + 1
      if !resume || !(sliceLookup st.dir.slices p).isSome then
        let blk := (List.range' st.pos small).map g
        ⟨⟨st.dir.configFile, sliceWrite st.dir.slices p blk⟩, st.pos + small,
          st.ops ++ [FileOp.writeSlice p blk]⟩
      else
        ⟨st.dir, st.pos + small, st.ops⟩
    else st
  let cl := cleanupSlices st1.dir.slices bc
  let st2 : BuildSt α := ⟨⟨st1.dir.configFile, cl.1⟩, st1.pos, st1.ops ++ cl.2⟩
  let st3 := writeFullBlocks g resume bs (List.range' 1 remaining) st2
  ⟨st3.dir, st3.pos, st3.ops, none⟩

/-- The fresh-build branch of `create_dataset` (lines 159-205 then the
shared tail): probe the block size, write block `0`, write the manifest,
return early when `block_size >= length`, otherwise continue with the
shared tail.  `d1`/`ops1` are directory and operations after the config
check.  The `length - block_size` subtraction and the `%`/`/` by
`block_size` panic exactly when Rust's would (underflow / division by
zero); block `0` has already been written at that point. -/
def freshBuild (g : Nat → α) (ssize : Nat → Nat) (length budget : Nat)
    (d1 : DataDir α) (ops1 : List (FileOp α)) : BuildOut α :=
  let bs := probeBlockSize ssize budget length 0
  let first := (List.range' 0 bs).map g
  let d2 : DataDir α := ⟨d1.configFile, sliceWrite d1.slices 0 first⟩
  let ops2 := ops1 ++ [FileOp.writeSlice 0 first]
  if length < bs then ⟨d2, bs, ops2, some BuildPanic.subUnderflow⟩
  else if bs = 0 then ⟨d2, bs, ops2, some BuildPanic.modZero⟩
  else
    let small := (length - bs) % bs
    let remaining := (length - bs) / bs
    let bc := if 0 < small then remaining + 2 else remaining + 1
    let cfg : AcademyDatasetConfig := ⟨budget, bc, bs, length⟩
    let d3 : DataDir α := ⟨ConfigFile.valid cfg, d2.slices⟩
    let ops3 := ops2 ++ [FileOp.writeConfig cfg]
    if length ≤ bs then ⟨d3, bs, ops3, none⟩
    else buildTail g false bs small remaining bc ⟨d3, bs, ops3⟩

/-- The resume branch of `create_dataset` (lines 148-158 then the shared
tail): take `block_size` and `block_count` from the manifest `c`, skip the
generator past block `0`, and continue with the shared tail. -/
def resumeBuild (g : Nat → α) (length : Nat) (c : AcademyDatasetConfig)
    (d1 : DataDir α) (ops1 : List (FileOp α)) : BuildOut α :=
  let bs := c.block_size
  if length < bs then ⟨d1, 0, ops1, some BuildPanic.subUnderflow⟩
  else if bs = 0 then ⟨d1, 0, ops1, some BuildPanic.modZero⟩
  else
    buildTail g true bs ((length - bs) % bs) ((length - bs) / bs)
      c.block_count ⟨d1, bs, ops1⟩

/-- `create_dataset` (`src/data/mod.rs` lines 121-276), embedded over a
deterministic generator `g` starting at position 0 and serialized-size
function `ssize`.  The config check (lines 131-140): a valid config with
matching length means resume; a valid config with a different length is
deleted first; a corrupt (undeserializable) or missing config leaves
`init_config = None` (fresh build) without aborting. -/
def create_dataset (g : Nat → α) (ssize : Nat → Nat)
    (length budget : Nat) (d0 : DataDir α) : BuildOut α :=
  match d0.configFile with
  | ConfigFile.valid c =>
    if c.length = length then resumeBuild g length c d0 []
    else
      freshBuild g ssize length budget ⟨ConfigFile.missing, d0.slices⟩
        [FileOp.deleteConfig]
  | _ => freshBuild g ssize length budget d0 []

/-! ## Reader: `AcademyDataset` (LRU block cache) -/

/-- Immutable fields of an opened `AcademyDataset` reader: manifest-derived
layout, the caller-supplied `max_cached_blocks`, and the directory's slice
files as a read function (the reader only ever reads `{i}.slice`). -/
structure AcademyDataset (α : Type) where
  block_count : Nat
  length : Nat
  block_size : Nat
  max_cached_blocks : Nat
  disk : Nat → Option (List α)

/-- `AcademyDataset::new` (lines 29-48): reads the manifest and allocates
one empty cache slot per block; `none` models the `expect` panic when
`config.dat` is absent or undeserializable. -/
def openDataset (d : DataDir α) (max_cached_blocks : Nat) :
    Option (AcademyDataset α) :=
  match d.configFile with
  | ConfigFile.valid c =>
    some ⟨c.block_count, c.length, c.block_size, max_cached_blocks,
      fun i => sliceLookup d.slices i⟩
  | _ => none

/-- `Dataset::len` (lines 97-99). -/
def dsLen (ds : AcademyDataset α) : Nat := ds.length

/-- Mutable cache state: one slot per block (`[]` models the unloaded
`Box::new([])`) and the `last_used` LRU ledger, most recently used first. -/
structure CacheState (α : Type) where
  slots : Nat → List α
  ledger : List Nat

/-- Cache state right after `AcademyDataset::new`: every slot empty, empty
ledger. -/
def initCache (α : Type) : CacheState α := ⟨fun _ => [], []⟩

/-- A Rust panic inside `get`: `index / block_size` with `block_size = 0`,
`last_used.pop_back().unwrap()` on an empty ledger, or the `expect` on a
missing/corrupt slice file. -/
inductive GetPanic where
  | divZero
  | popEmpty
  | sliceMissing
deriving DecidableEq

/-- The hit-path ledger loop of `get` (lines 78-91): pop indices from the
front until the target is found (or the deque is exhausted), remembering
them in order; the popped prefix is pushed back and the target pushed to
the front.  Returns (popped prefix, rest after the target). -/
def popUntil (bi : Nat) : List Nat → List Nat × List Nat
  | [] => ([], [])
  | i :: rest =>
    if i = bi then ([], rest)
    else
      let r := popUntil bi rest
      (i :: r.1, r.2)

/-- Net ledger effect of the hit path: the popped prefix is restored in
order and the target becomes most recently used. -/
def lruTouch (bi : Nat) (l : List Nat) : List Nat :=
  let r := popUntil bi l
  bi :: (r.1 ++ r.2)

/-- The load step of a miss (lines 69-76): push the block index to the
front of the ledger and read the slice file into the slot. -/
def loadBlock (ds : AcademyDataset α) (st : CacheState α) (bi idx : Nat) :
    Except GetPanic (Option α × CacheState α) :=
  match ds.disk bi with
  | none => Except.error GetPanic.sliceMissing
  | some blk =>
    Except.ok (blk.get? (idx % ds.block_size),
      ⟨Function.update st.slots bi blk, bi :: st.ledger⟩)

/-- `Dataset::get` (lines 52-95).  `index / block_size`; out-of-range block
index returns `None` untouched; an empty slot is a miss (evict the
least-recently-used block when the ledger is full, then load from disk); a
non-empty slot is a hit (LRU touch).  The returned item is
`items[index % block_size]`, cloned.  The eviction's
`cache.get(last_used_index).unwrap()` is modeled by a total update: ledger
entries are always in-range block indices. -/
def dsGet (ds : AcademyDataset α) (st : CacheState α) (idx : Nat) :
    Except GetPanic (Option α × CacheState α) :=
  if ds.block_size = 0 then Except.error GetPanic.divZero
  else
    let bi := idx / ds.block_size
    if ds.block_count ≤ bi then Except.ok (none, st)
    else if (st.slots bi).isEmpty then
      if ds.max_cached_blocks ≤ st.ledger.length then
        match st.ledger.getLast? with
        | none => Except.error GetPanic.popEmpty
        | some v =>
          loadBlock ds ⟨Function.update st.slots v [], st.ledger.dropLast⟩ bi idx
      else loadBlock ds st bi idx
    else
      Except.ok ((st.slots bi).get? (idx % ds.block_size),
        ⟨st.slots, lruTouch bi st.ledger⟩)

/-- Run a sequence of `get` calls (single-threaded), discarding the
returned items; stops at the first panic. -/
def runGets (ds : AcademyDataset α) : List Nat → CacheState α →
    Except GetPanic (CacheState α)
  | [], st => Except.ok st
  | i :: rest, st =>
    match dsGet ds st i with
    | Except.error e => Except.error e
    | Except.ok (_, st') => runGets ds rest st'

/-- The item `get idx` returns once the owning block is resident: `none`
past the slot array, otherwise `items[idx % block_size]` of the block on
disk. -/
def dsReadPure (ds : AcademyDataset α) (idx : Nat) : Option α :=
  if idx / ds.block_size < ds.block_count then
    ((ds.disk (idx / ds.block_size)).getD []).get? (idx % ds.block_size)
  else none

/-- The first projection of a `get` result (item or panic, discarding the
cache state), for concrete evaluation. -/
def dsGetValue (ds : AcademyDataset α) (st : CacheState α) (idx : Nat) :
    Except GetPanic (Option α) :=
  (dsGet ds st idx).map Prod.fst

/-- A usable dataset directory as the reader assumes it: items are at
least one byte (`block_size ≥ 1`) and every block file in `0..block_count`
is present and non-empty. -/
def GoodDS (ds : AcademyDataset α) : Prop :=
  1 ≤ ds.block_size ∧
  ∀ i, i < ds.block_count →
    (ds.disk i).isSome = true ∧ ((ds.disk i).getD []).isEmpty = false

/-- The block indices a sequence of `get` calls actually touches (those
whose owning slot exists); `index / block_size` per call. -/
def touchedBlocks (ds : AcademyDataset α) (accesses : List Nat) : List Nat :=
  (accesses.map (fun idx => idx / ds.block_size)).filter
    (fun b => decide (b < ds.block_count))

/-- Most-recently-used-first sequence of distinct touched blocks: each
touch moves its block to the front. -/
def mruFold (l : List Nat) : List Nat :=
  l.foldl (fun r a => a :: r.erase a) []

/-- Invariant tying a cache state to the access history: the ledger is the
`max_cached_blocks` most recently touched distinct blocks (most recent
first), a slot is non-empty exactly when its block is on the ledger, and
resident slots hold their block's on-disk contents. -/
def CacheInv (ds : AcademyDataset α) (hist : List Nat) (st : CacheState α) :
    Prop :=
  st.ledger = (mruFold (touchedBlocks ds hist)).take ds.max_cached_blocks ∧
  (∀ b, b ∈ st.ledger ↔ st.slots b ≠ []) ∧
  (∀ b ∈ st.ledger, ds.disk b = some (st.slots b))

/-! ## Lock-trace model of `get` (miss with eviction)

`get` guards each cache slot and the LRU ledger with separate mutexes.  On
a miss that evicts, the source (lines 52-76) holds, in order: the target
slot's lock (line 55), then additionally the ledger lock (line 56), then
additionally the victim slot's lock for the one statement that clears it
(lines 60-67, a temporary guard dropped at the end of the statement), then
performs the disk read holding the target slot and ledger locks
(lines 73-76), releasing everything on return. -/

/-- A mutex in the reader: one per cache slot, plus the LRU ledger. -/
inductive LockId where
  | slot (i : Nat)
  | ledger
deriving DecidableEq

/-- Steps of a `get` miss that evicts, as they appear in the source. -/
inductive CacheEvent where
  | acquireSlot (i : Nat)
  | acquireLedger
  | clearVictim (i : Nat)
  | diskLoad (i : Nat)
  | releaseLedger
  | releaseSlot (i : Nat)
deriving DecidableEq

/-- Whether a step is the disk read of the missing block. -/
def isDiskLoad : CacheEvent → Bool
  | CacheEvent.diskLoad _ => true
  | _ => false

/-- The lock trace of `get` on a miss that evicts victim `v` while loading
block `bi`: each step paired with the set of locks held while it runs
(for a release step, the locks still held after it). -/
def getMissEvictTrace (bi v : Nat) : List (CacheEvent × List LockId) :=
  [(CacheEvent.acquireSlot bi, [LockId.slot bi]),
   (CacheEvent.acquireLedger, [LockId.slot bi, LockId.ledger]),
   (CacheEvent.clearVictim v, [LockId.slot bi, LockId.ledger, LockId.slot v]),
   (CacheEvent.diskLoad bi, [LockId.slot bi, LockId.ledger]),
   (CacheEvent.releaseLedger, [LockId.slot bi]),
   (CacheEvent.releaseSlot bi, [])]

/-- Where read-back index `i` lands in the generation sequence of a fresh
sequential build: block `0` is generated first, the remainder block
(serving the last indices) second, and the full blocks `1..=remaining`
last — so indices in full blocks are shifted by `small` and indices in the
trailing remainder block map back to right after block `0`. -/
def buildIndex (bs small remaining i : Nat) : Nat :=
  if i < bs then i
  else if i < (remaining + 1) * bs then i + small
  else bs + (i - (remaining + 1) * bs)

/-- Placeholder dataset (used only as the default of `openBuiltD`). -/
def dummyDS (α : Type) : AcademyDataset α := ⟨0, 0, 1, 0, fun _ => none⟩

/-- Build a dataset into a clean directory and open a reader on it. -/
def openBuiltD (g : Nat → α) (ssize : Nat → Nat) (length budget k : Nat) :
    AcademyDataset α :=
  (openDataset (create_dataset g ssize length budget (cleanDir α)).dir
    k).getD (dummyDS α)

/-! ## Helper lemmas: slice files -/

theorem sliceLookup_nil (i : Nat) : sliceLookup ([] : List (Nat × List α)) i = none := rfl

theorem sliceLookup_cons (a : Nat) (v : List α) (d : List (Nat × List α)) (i : Nat) :
    sliceLookup ((a, v) :: d) i = if a = i then some v else sliceLookup d i := by
  by_cases h : a = i <;> simp [sliceLookup, List.find?_cons, h]

theorem sliceLookup_erase (d : List (Nat × List α)) (j i : Nat) :
    sliceLookup (sliceErase d j) i = if j = i then none else sliceLookup d i := by
  induction d with
  | nil => by_cases h : j = i <;> simp [sliceErase, sliceLookup_nil, h]
  | cons p d ih =>
    obtain ⟨a, v⟩ := p
    by_cases haj : a = j
    · subst haj
      have h1 : sliceErase ((a, v) :: d) a = sliceErase d a := by
        simp [sliceErase, List.filter_cons]
      rw [h1, ih]
      by_cases hai : a = i
      · subst hai; simp [sliceLookup_cons]
      · simp [sliceLookup_cons, hai]
    · have h1 : sliceErase ((a, v) :: d) j = (a, v) :: sliceErase d j := by
        simp [sliceErase, List.filter_cons, haj]
      rw [h1, sliceLookup_cons, sliceLookup_cons, ih]
      by_cases hai : a = i
      · subst hai
        have hji : ¬ j = a := fun h => haj h.symm
        simp [hji]
      · simp [hai]

theorem sliceLookup_write (d : List (Nat × List α)) (j : Nat) (v : List α) (i : Nat) :
    sliceLookup (sliceWrite d j v) i = if j = i then some v else sliceLookup d i := by
  by_cases h : j = i <;>
    simp [sliceWrite, sliceLookup_cons, sliceLookup_erase, h]

/-! ## Helper lemmas: the size-probing loop -/

theorem probeBlockSize_ge (ssize : Nat → Nat) (budget : Nat) :
    ∀ fuel bs, bs ≤ probeBlockSize ssize budget fuel bs := by
  intro fuel
  induction fuel with
  | zero => intro bs; simp [probeBlockSize]
  | succ n ih =>
    intro bs
    simp only [probeBlockSize]
    split
    · omega
    · exact le_trans (by omega) (ih (bs + 1))

theorem probeBlockSize_le (ssize : Nat → Nat) (budget : Nat) :
    ∀ fuel bs, probeBlockSize ssize budget fuel bs ≤ bs + fuel := by
  intro fuel
  induction fuel with
  | zero => intro bs; simp [probeBlockSize]
  | succ n ih =>
    intro bs
    simp only [probeBlockSize]
    split
    · omega
    · exact le_trans (ih (bs + 1)) (by omega)

theorem probeBlockSize_succ_ge (ssize : Nat → Nat) (budget fuel bs : Nat) :
    bs + 1 ≤ probeBlockSize ssize budget (fuel + 1) bs := by
  simp only [probeBlockSize]
  split
  · omega
  · exact probeBlockSize_ge ssize budget fuel (bs + 1)

/-- For `length ≥ 1` the derived `block_size` satisfies
`1 ≤ block_size ≤ length`. -/
theorem probeBlockSize_bounds (ssize : Nat → Nat) (budget length : Nat)
    (h : 1 ≤ length) :
    1 ≤ probeBlockSize ssize budget length 0 ∧
      probeBlockSize ssize budget length 0 ≤ length := by
  obtain ⟨n, rfl⟩ : ∃ n, length = n + 1 := ⟨length - 1, by omega⟩
  refine ⟨probeBlockSize_succ_ge ssize budget n 0, ?_⟩
  simpa using probeBlockSize_le ssize budget (n + 1) 0

/-! ## Helper lemmas: the stray-file cleanup loop -/

theorem sliceErase_length_lt (d : List (Nat × List α)) (i : Nat)
    (h : (sliceLookup d i).isSome = true) :
    (sliceErase d i).length < d.length := by
  have h2 : ∃ p, p ∈ d ∧ ((fun p : Nat × List α => p.1 == i) p = true) := by
    have hfind : (d.find? (fun p : Nat × List α => p.1 == i)).isSome = true := by
      simpa [sliceLookup, Option.isSome_map] using h
    simpa using List.find?_isSome.mp hfind
  rcases h2 with ⟨p, hp, hpi⟩
  exact List.length_filter_lt_length_iff_exists.mpr ⟨p, hp, by simp_all⟩

theorem cleanupSlices_of_absent (d : List (Nat × List α)) (i : Nat)
    (h : sliceLookup d i = none) : cleanupSlices d i = (d, []) := by
  simp [cleanupSlices, cleanupSlicesAux, h]

theorem cleanupSlicesAux_lookup_lt :
    ∀ (fuel : Nat) (d : List (Nat × List α)) (i j : Nat), j < i →
      sliceLookup (cleanupSlicesAux fuel d i).1 j = sliceLookup d j := by
  intro fuel
  induction fuel with
  | zero => intro d i j _; rfl
  | succ n ih =>
    intro d i j h
    simp only [cleanupSlicesAux]
    by_cases hp : (sliceLookup d i).isSome = true
    · rw [if_pos hp]
      show sliceLookup (cleanupSlicesAux n (sliceErase d i) (i + 1)).1 j = _
      rw [ih (sliceErase d i) (i + 1) j (by omega), sliceLookup_erase]
      have hne : ¬ i = j := by omega
      simp [hne]
    · rw [if_neg hp]

theorem cleanupSlicesAux_lookup_ge :
    ∀ (fuel : Nat) (d : List (Nat × List α)) (i j : Nat), i ≤ j →
      d.length < fuel →
      sliceLookup (cleanupSlicesAux fuel d i).1 j =
        if ∀ m ≤ j, i ≤ m → (sliceLookup d m).isSome = true then none
        else sliceLookup d j := by
  intro fuel
  induction fuel with
  | zero => intro d i j _ hf; omega
  | succ n ih =>
    intro d i j h hf
    simp only [cleanupSlicesAux]
    by_cases hpres : (sliceLookup d i).isSome = true
    · rw [if_pos hpres]
      show sliceLookup (cleanupSlicesAux n (sliceErase d i) (i + 1)).1 j = _
      have herase := sliceErase_length_lt d i hpres
      rcases Nat.lt_or_ge j (i + 1) with hj | hj
      · have hji : j = i := by omega
        subst hji
        have hcond : ∀ m ≤ j, j ≤ m → (sliceLookup d m).isSome = true := by
          intro m h1 h2
          have h3 : m = j := le_antisymm h1 h2
          rw [h3]
          exact hpres
        rw [if_pos hcond]
        rw [cleanupSlicesAux_lookup_lt n (sliceErase d j) (j + 1) j (by omega),
          sliceLookup_erase]
        simp
      · rw [ih (sliceErase d i) (i + 1) j hj (by omega)]
        have hlook : ∀ m, i + 1 ≤ m →
            sliceLookup (sliceErase d i) m = sliceLookup d m := by
          intro m hm
          rw [sliceLookup_erase]
          have hne : ¬ i = m := by omega
          simp [hne]
        have hcond : (∀ m ≤ j, i + 1 ≤ m →
              (sliceLookup (sliceErase d i) m).isSome = true) ↔
            (∀ m ≤ j, i ≤ m → (sliceLookup d m).isSome = true) := by
          constructor
          · intro hc m h1 h2
            rcases Nat.eq_or_lt_of_le h2 with h3 | h3
            · rw [← h3]; exact hpres
            · rw [← hlook m (by omega)]; exact hc m h1 (by omega)
          · intro hc m h1 h2
            rw [hlook m h2]; exact hc m h1 (by omega)
        rw [hlook j hj]
        by_cases hc : ∀ m ≤ j, i ≤ m → (sliceLookup d m).isSome = true
        · rw [if_pos (hcond.mpr hc), if_pos hc]
        · rw [if_neg (fun hx => hc (hcond.mp hx)), if_neg hc]
    · rw [if_neg hpres]
      have hne : ¬ ∀ m ≤ j, i ≤ m → (sliceLookup d m).isSome = true := by
        intro hc
        have := hc i h (le_refl i)
        simp_all
      simp [hne]

theorem cleanupSlices_lookup_lt (d : List (Nat × List α)) (i j : Nat)
    (h : j < i) : sliceLookup (cleanupSlices d i).1 j = sliceLookup d j :=
  cleanupSlicesAux_lookup_lt _ d i j h

theorem cleanupSlices_lookup_ge (d : List (Nat × List α)) (i j : Nat)
    (h : i ≤ j) :
    sliceLookup (cleanupSlices d i).1 j =
      if ∀ m ≤ j, i ≤ m → (sliceLookup d m).isSome = true then none
      else sliceLookup d j :=
  cleanupSlicesAux_lookup_ge _ d i j h (by omega)

/-! ## Helper lemmas: the full-block loop -/

theorem writeFullBlocks_resume (g : Nat → α) (bs : Nat) :
    ∀ (l : List Nat) (st : BuildSt α),
      (∀ i ∈ l, (sliceLookup st.dir.slices i).isSome = true) →
      writeFullBlocks g true bs l st = ⟨st.dir, st.pos + l.length * bs, st.ops⟩ := by
  intro l
  induction l with
  | nil => intro st _; simp [writeFullBlocks]
  | cons i rest ih =>
    intro st h
    have hi : (sliceLookup st.dir.slices i).isSome = true := h i (by simp)
    simp only [writeFullBlocks, hi, Bool.and_true, if_pos]
    rw [ih ⟨st.dir, st.pos + bs, st.ops⟩ (fun m hm => h m (by simp [hm]))]
    simp only [List.length_cons, BuildSt.mk.injEq, true_and, and_true]
    ring

/-- Fresh (non-resume) full-block writing over `range' a n`: block `a + t`
holds the items generated at positions `st.pos + t * bs`, other files are
untouched, the config file is untouched, and the generator advances by
`n * bs`. -/
theorem writeFullBlocks_fresh (g : Nat → α) (bs : Nat) :
    ∀ (n a : Nat) (st : BuildSt α),
      (writeFullBlocks g false bs (List.range' a n) st).dir.configFile =
          st.dir.configFile ∧
      (writeFullBlocks g false bs (List.range' a n) st).pos = st.pos + n * bs ∧
      (∀ t, t < n →
        sliceLookup (writeFullBlocks g false bs (List.range' a n) st).dir.slices
            (a + t) =
          some ((List.range' (st.pos + t * bs) bs).map g)) ∧
      (∀ j, (j < a ∨ a + n ≤ j) →
        sliceLookup (writeFullBlocks g false bs (List.range' a n) st).dir.slices
            j =
          sliceLookup st.dir.slices j) := by
  intro n
  induction n with
  | zero =>
    intro a st
    simp [writeFullBlocks]
  | succ m ih =>
    intro a st
    have hstep : writeFullBlocks g false bs (List.range' a (m + 1)) st =
        writeFullBlocks g false bs (List.range' (a + 1) m)
          ⟨⟨st.dir.configFile,
            sliceWrite st.dir.slices a ((List.range' st.pos bs).map g)⟩,
            st.pos + bs,
            st.ops ++ [FileOp.writeSlice a ((List.range' st.pos bs).map g)]⟩ := by
      rw [List.range'_succ]
      simp [writeFullBlocks]
    obtain ⟨hcf, hpos, hin, hout⟩ := ih (a + 1)
      ⟨⟨st.dir.configFile,
        sliceWrite st.dir.slices a ((List.range' st.pos bs).map g)⟩,
        st.pos + bs,
        st.ops ++ [FileOp.writeSlice a ((List.range' st.pos bs).map g)]⟩
    rw [hstep]
    refine ⟨hcf, ?_, ?_, ?_⟩
    · rw [hpos]
      show st.pos + bs + m * bs = st.pos + (m + 1) * bs
      ring
    · intro t ht
      cases t with
      | zero =>
        simp only [Nat.add_zero, Nat.zero_mul]
        rw [hout a (by omega)]
        show sliceLookup
          (sliceWrite st.dir.slices a ((List.range' st.pos bs).map g)) a = _
        rw [sliceLookup_write]
        simp
      | succ s =>
        have h1 := hin s (by omega)
        have harith : a + 1 + s = a + (s + 1) := by omega
        rw [harith] at h1
        rw [h1]
        show some ((List.range' (st.pos + bs + s * bs) bs).map g) = _
        have : st.pos + bs + s * bs = st.pos + (s + 1) * bs := by ring
        rw [this]
    · intro j hj
      rw [hout j (by omega)]
      show sliceLookup
        (sliceWrite st.dir.slices a ((List.range' st.pos bs).map g)) j = _
      rw [sliceLookup_write]
      have : ¬ a = j := by omega
      simp [this]

/-! ## Layout of a fresh build -/

/-- Effect of the shared tail on a fresh (non-resume) build: the small
block (generated right after block 0, at file index `remaining + 1`), the
cleanup of the contiguous stray run from `bc`, and the full blocks
`1..=remaining` (generated last). -/
theorem buildTail_fresh_spec (g : Nat → α) (bs small remaining bc : Nat)
    (cf : ConfigFile) (s1 : List (Nat × List α)) (p0 : Nat)
    (ops0 : List (FileOp α))
    (hbc : bc = if 0 < small then remaining + 2 else remaining + 1) :
    (buildTail g false bs small remaining bc ⟨⟨cf, s1⟩, p0, ops0⟩).panicked =
        none ∧
    (buildTail g false bs small remaining bc
        ⟨⟨cf, s1⟩, p0, ops0⟩).dir.configFile = cf ∧
    (buildTail g false bs small remaining bc ⟨⟨cf, s1⟩, p0, ops0⟩).pos =
        p0 + small + remaining * bs ∧
    (∀ t, t < remaining →
      sliceLookup
          (buildTail g false bs small remaining bc
            ⟨⟨cf, s1⟩, p0, ops0⟩).dir.slices (1 + t) =
        some ((List.range' (p0 + small + t * bs) bs).map g)) ∧
    (0 < small →
      sliceLookup
          (buildTail g false bs small remaining bc
            ⟨⟨cf, s1⟩, p0, ops0⟩).dir.slices (remaining + 1) =
        some ((List.range' p0 small).map g)) ∧
    sliceLookup
        (buildTail g false bs small remaining bc
          ⟨⟨cf, s1⟩, p0, ops0⟩).dir.slices 0 = sliceLookup s1 0 ∧
    (∀ j, bc ≤ j →
      sliceLookup
          (buildTail g false bs small remaining bc
            ⟨⟨cf, s1⟩, p0, ops0⟩).dir.slices j =
        if ∀ m ≤ j, bc ≤ m → (sliceLookup s1 m).isSome = true then none
        else sliceLookup s1 j) := by
  by_cases hsm0 : 0 < small
  · -- a remainder block exists and is written before the cleanup
    rw [if_pos hsm0] at hbc
    have hstep : buildTail g false bs small remaining bc
        ⟨⟨cf, s1⟩, p0, ops0⟩ =
        (let s2 := sliceWrite s1 (remaining + 1) ((List.range' p0 small).map g)
         let cl := cleanupSlices s2 bc
         let st3 := writeFullBlocks g false bs (List.range' 1 remaining)
           ⟨⟨cf, cl.1⟩, p0 + small,
             (ops0 ++
               [FileOp.writeSlice (remaining + 1)
                 ((List.range' p0 small).map g)]) ++ cl.2⟩
         (⟨st3.dir, st3.pos, st3.ops, none⟩ : BuildOut α)) := by
      simp [buildTail, hsm0]
    rw [hstep]
    dsimp only
    set s2 := sliceWrite s1 (remaining + 1) ((List.range' p0 small).map g)
      with hs2
    set cl := cleanupSlices s2 bc with hcl
    obtain ⟨hcf, hpos, hin, hout⟩ := writeFullBlocks_fresh g bs remaining 1
      ⟨⟨cf, cl.1⟩, p0 + small,
        (ops0 ++
          [FileOp.writeSlice (remaining + 1)
            ((List.range' p0 small).map g)]) ++ cl.2⟩
    have hs2look : ∀ m, bc ≤ m → sliceLookup s2 m = sliceLookup s1 m := by
      intro m hm
      rw [hs2, sliceLookup_write]
      have : ¬ remaining + 1 = m := by omega
      simp [this]
    refine ⟨rfl, hcf, ?_, ?_, ?_, ?_, ?_⟩
    · rw [hpos]
    · intro t ht
      exact hin t ht
    · intro _
      rw [hout (remaining + 1) (by omega)]
      show sliceLookup cl.1 (remaining + 1) = _
      rw [hcl, cleanupSlices_lookup_lt s2 bc (remaining + 1) (by omega), hs2,
        sliceLookup_write]
      simp
    · rw [hout 0 (by omega)]
      show sliceLookup cl.1 0 = _
      rw [hcl, cleanupSlices_lookup_lt s2 bc 0 (by omega), hs2,
        sliceLookup_write]
      have : ¬ remaining + 1 = 0 := by omega
      simp [this]
    · intro j hj
      rw [hout j (by omega)]
      show sliceLookup cl.1 j = _
      rw [hcl, cleanupSlices_lookup_ge s2 bc j hj]
      have hcond : (∀ m ≤ j, bc ≤ m → (sliceLookup s2 m).isSome = true) ↔
          (∀ m ≤ j, bc ≤ m → (sliceLookup s1 m).isSome = true) := by
        constructor
        · intro hc m h1 h2; rw [← hs2look m h2]; exact hc m h1 h2
        · intro hc m h1 h2; rw [hs2look m h2]; exact hc m h1 h2
      rw [hs2look j hj]
      by_cases hc : ∀ m ≤ j, bc ≤ m → (sliceLookup s1 m).isSome = true
      · rw [if_pos (hcond.mpr hc), if_pos hc]
      · rw [if_neg (fun hx => hc (hcond.mp hx)), if_neg hc]
  · -- no remainder block
    have hsmz : small = 0 := by omega
    subst hsmz
    rw [if_neg (by omega)] at hbc
    have hstep : buildTail g false bs 0 remaining bc
        ⟨⟨cf, s1⟩, p0, ops0⟩ =
        (let cl := cleanupSlices s1 bc
         let st3 := writeFullBlocks g false bs (List.range' 1 remaining)
           ⟨⟨cf, cl.1⟩, p0, ops0 ++ cl.2⟩
         (⟨st3.dir, st3.pos, st3.ops, none⟩ : BuildOut α)) := by
      simp [buildTail]
    rw [hstep]
    dsimp only
    set cl := cleanupSlices s1 bc with hcl
    obtain ⟨hcf, hpos, hin, hout⟩ := writeFullBlocks_fresh g bs remaining 1
      ⟨⟨cf, cl.1⟩, p0, ops0 ++ cl.2⟩
    refine ⟨rfl, hcf, ?_, ?_, ?_, ?_, ?_⟩
    · rw [hpos]
      show p0 + remaining * bs = p0 + 0 + remaining * bs
      omega
    · intro t ht
      have := hin t ht
      rw [this]
      show some ((List.range' (p0 + t * bs) bs).map g) = _
      rw [show p0 + 0 + t * bs = p0 + t * bs by omega]
    · intro h0; omega
    · rw [hout 0 (by omega)]
      show sliceLookup cl.1 0 = _
      rw [hcl, cleanupSlices_lookup_lt s1 bc 0 (by omega)]
    · intro j hj
      rw [hout j (by omega)]
      show sliceLookup cl.1 j = _
      rw [hcl, cleanupSlices_lookup_ge s1 bc j hj]

/-- Layout and contents after the fresh-build branch with `length ≥ 1`:
no panic, the manifest as derived, the generator advanced to `length`,
block `0` holding the first `block_size` generated items, full block
`1 + t` holding the items generated after the small block, the small
block holding the items generated right after block `0`, and a file at
index `j ≥ block_count` removed exactly when the run
`block_count..j` was fully present and the early return was not taken. -/
theorem freshBuild_spec (g : Nat → α) (ssize : Nat → Nat)
    (length budget : Nat) (cf1 : ConfigFile) (s0 : List (Nat × List α))
    (ops1 : List (FileOp α)) (bs small remaining bc : Nat)
    (hbs : bs = probeBlockSize ssize budget length 0)
    (hsmall : small = (length - bs) % bs)
    (hrem : remaining = (length - bs) / bs)
    (hbc : bc = if 0 < small then remaining + 2 else remaining + 1)
    (hlen : 1 ≤ length) :
    (freshBuild g ssize length budget ⟨cf1, s0⟩ ops1).panicked = none ∧
    (freshBuild g ssize length budget ⟨cf1, s0⟩ ops1).dir.configFile =
      ConfigFile.valid ⟨budget, bc, bs, length⟩ ∧
    (freshBuild g ssize length budget ⟨cf1, s0⟩ ops1).pos = length ∧
    sliceLookup (freshBuild g ssize length budget ⟨cf1, s0⟩ ops1).dir.slices 0 =
      some ((List.range' 0 bs).map g) ∧
    (∀ t, t < remaining →
      sliceLookup (freshBuild g ssize length budget ⟨cf1, s0⟩ ops1).dir.slices
          (1 + t) = some ((List.range' (bs + small + t * bs) bs).map g)) ∧
    (0 < small →
      sliceLookup (freshBuild g ssize length budget ⟨cf1, s0⟩ ops1).dir.slices
          (remaining + 1) = some ((List.range' bs small).map g)) ∧
    (∀ j, bc ≤ j →
      sliceLookup (freshBuild g ssize length budget ⟨cf1, s0⟩ ops1).dir.slices
          j =
        if (∀ m ≤ j, bc ≤ m → (sliceLookup s0 m).isSome = true) ∧ bs < length
        then none else sliceLookup s0 j) := by
  subst hbc hrem hsmall hbs
  simp only [freshBuild]
  set bs := probeBlockSize ssize budget length 0 with hbsdef
  obtain ⟨hbs1, hbs2⟩ := probeBlockSize_bounds ssize budget length hlen
  rw [← hbsdef] at hbs1 hbs2
  have hnlt : ¬ length < bs := by omega
  have hnz : ¬ bs = 0 := by omega
  rw [if_neg hnlt, if_neg hnz]
  have hbcpos : 1 ≤ (if 0 < (length - bs) % bs then (length - bs) / bs + 2
      else (length - bs) / bs + 1) := by
    split <;> exact Nat.succ_le_succ (Nat.zero_le _)
  by_cases hle : length ≤ bs
  · -- early return: `block_size >= length`, a single block
    rw [if_pos hle]
    have hsub : length - bs = 0 := by omega
    refine ⟨rfl, rfl, by show bs = length; omega, ?_, ?_, ?_, ?_⟩
    · show sliceLookup (sliceWrite s0 0 ((List.range' 0 bs).map g)) 0 = _
      rw [sliceLookup_write]
      simp
    · intro t ht
      rw [hsub] at ht
      simp at ht
    · intro hpos
      rw [hsub] at hpos
      simp at hpos
    · intro j hj
      show sliceLookup (sliceWrite s0 0 ((List.range' 0 bs).map g)) j = _
      rw [sliceLookup_write]
      have hj0 : ¬ (0 : Nat) = j := by omega
      rw [if_neg hj0, if_neg (by rintro ⟨_, hx⟩; omega)]
  · -- `block_size < length`: the shared tail runs
    rw [if_neg hle]
    have hdm := Nat.div_add_mod (length - bs) bs
    obtain ⟨h1, h2, h3, h4, h5, h6, h7⟩ :=
      buildTail_fresh_spec g bs ((length - bs) % bs) ((length - bs) / bs)
        (if 0 < (length - bs) % bs then (length - bs) / bs + 2
          else (length - bs) / bs + 1)
        (ConfigFile.valid
          ⟨budget,
            if 0 < (length - bs) % bs then (length - bs) / bs + 2
            else (length - bs) / bs + 1, bs, length⟩)
        (sliceWrite s0 0 ((List.range' 0 bs).map g)) bs
        (ops1 ++ [FileOp.writeSlice 0 ((List.range' 0 bs).map g)] ++
          [FileOp.writeConfig
            ⟨budget,
              if 0 < (length - bs) % bs then (length - bs) / bs + 2
              else (length - bs) / bs + 1, bs, length⟩])
        rfl
    have hwr0 : ∀ m, 1 ≤ m →
        sliceLookup (sliceWrite s0 0 ((List.range' 0 bs).map g)) m =
          sliceLookup s0 m := by
      intro m hm
      rw [sliceLookup_write]
      have : ¬ (0 : Nat) = m := by omega
      simp [this]
    refine ⟨h1, h2, ?_, ?_, h4, h5, ?_⟩
    · rw [h3, Nat.mul_comm]
      show bs + (length - bs) % bs + bs * ((length - bs) / bs) = length
      omega
    · rw [h6, sliceLookup_write]
      simp
    · intro j hj
      rw [h7 j hj]
      have hblt : bs < length := by omega
      have hcond : (∀ m ≤ j,
            (if 0 < (length - bs) % bs then (length - bs) / bs + 2
              else (length - bs) / bs + 1) ≤ m →
            (sliceLookup (sliceWrite s0 0 ((List.range' 0 bs).map g))
                m).isSome = true) ↔
          (∀ m ≤ j,
            (if 0 < (length - bs) % bs then (length - bs) / bs + 2
              else (length - bs) / bs + 1) ≤ m →
            (sliceLookup s0 m).isSome = true) := by
        constructor
        · intro hc m hm1 hm2
          rw [← hwr0 m (by omega)]
          exact hc m hm1 hm2
        · intro hc m hm1 hm2
          rw [hwr0 m (by omega)]
          exact hc m hm1 hm2
      rw [hwr0 j (by omega)]
      by_cases hc : ∀ m ≤ j,
          (if 0 < (length - bs) % bs then (length - bs) / bs + 2
            else (length - bs) / bs + 1) ≤ m →
          (sliceLookup s0 m).isSome = true
      · rw [if_pos (hcond.mpr hc), if_pos ⟨hc, hblt⟩]
      · rw [if_neg (fun hx => hc (hcond.mp hx)),
          if_neg (fun hx => hc hx.1)]

/-- `create_dataset` on a directory whose config is missing, corrupt, or a
manifest for a different `length` takes the fresh-build branch; the
conclusions of `freshBuild_spec` hold of it. -/
theorem create_dataset_fresh_spec (g : Nat → α) (ssize : Nat → Nat)
    (length budget : Nat) (d0 : DataDir α)
    (bs small remaining bc : Nat)
    (hbs : bs = probeBlockSize ssize budget length 0)
    (hsmall : small = (length - bs) % bs)
    (hrem : remaining = (length - bs) / bs)
    (hbc : bc = if 0 < small then remaining + 2 else remaining + 1)
    (hlen : 1 ≤ length)
    (hcf : ∀ c, d0.configFile = ConfigFile.valid c → ¬ c.length = length) :
    (create_dataset g ssize length budget d0).panicked = none ∧
    (create_dataset g ssize length budget d0).dir.configFile =
      ConfigFile.valid ⟨budget, bc, bs, length⟩ ∧
    (create_dataset g ssize length budget d0).pos = length ∧
    sliceLookup (create_dataset g ssize length budget d0).dir.slices 0 =
      some ((List.range' 0 bs).map g) ∧
    (∀ t, t < remaining →
      sliceLookup (create_dataset g ssize length budget d0).dir.slices
          (1 + t) = some ((List.range' (bs + small + t * bs) bs).map g)) ∧
    (0 < small →
      sliceLookup (create_dataset g ssize length budget d0).dir.slices
          (remaining + 1) = some ((List.range' bs small).map g)) ∧
    (∀ j, bc ≤ j →
      sliceLookup (create_dataset g ssize length budget d0).dir.slices j =
        if (∀ m ≤ j, bc ≤ m → (sliceLookup d0.slices m).isSome = true) ∧
            bs < length
        then none else sliceLookup d0.slices j) := by
  obtain ⟨cf0, s0⟩ := d0
  cases cf0 with
  | missing =>
    have hstep : create_dataset g ssize length budget ⟨ConfigFile.missing, s0⟩ =
        freshBuild g ssize length budget ⟨ConfigFile.missing, s0⟩ [] := rfl
    rw [hstep]
    exact freshBuild_spec g ssize length budget ConfigFile.missing s0 []
      bs small remaining bc hbs hsmall hrem hbc hlen
  | corrupt =>
    have hstep : create_dataset g ssize length budget ⟨ConfigFile.corrupt, s0⟩ =
        freshBuild g ssize length budget ⟨ConfigFile.corrupt, s0⟩ [] := rfl
    rw [hstep]
    exact freshBuild_spec g ssize length budget ConfigFile.corrupt s0 []
      bs small remaining bc hbs hsmall hrem hbc hlen
  | valid c =>
    have hne : ¬ c.length = length := hcf c rfl
    have hstep : create_dataset g ssize length budget
        ⟨ConfigFile.valid c, s0⟩ =
        freshBuild g ssize length budget ⟨ConfigFile.missing, s0⟩
          [FileOp.deleteConfig] := by
      simp [create_dataset, hne]
    rw [hstep]
    exact freshBuild_spec g ssize length budget ConfigFile.missing s0
      [FileOp.deleteConfig] bs small remaining bc hbs hsmall hrem hbc hlen

/-! ## Resume on a complete directory -/

/-- A resume over a directory that already holds every block writes
nothing: the directory is unchanged, no file operation happens, and the
generator is skip-advanced to `length`. -/
theorem create_dataset_resume_noop (g : Nat → α) (ssize : Nat → Nat)
    (length budget : Nat) (c : AcademyDatasetConfig)
    (s1 : List (Nat × List α))
    (hclen : c.length = length)
    (hbs1 : 1 ≤ c.block_size) (hbs2 : c.block_size ≤ length)
    (hsmallblk : 0 < (length - c.block_size) % c.block_size →
      (sliceLookup s1 ((length - c.block_size) / c.block_size + 1)).isSome =
        true)
    (hfull : ∀ t, t < (length - c.block_size) / c.block_size →
      (sliceLookup s1 (1 + t)).isSome = true)
    (hnostray : sliceLookup s1 c.block_count = none) :
    create_dataset g ssize length budget ⟨ConfigFile.valid c, s1⟩ =
      ⟨⟨ConfigFile.valid c, s1⟩, length, [], none⟩ := by
  have hstep : create_dataset g ssize length budget ⟨ConfigFile.valid c, s1⟩ =
      resumeBuild g length c ⟨ConfigFile.valid c, s1⟩ [] := by
    simp [create_dataset, hclen]
  rw [hstep]
  simp only [resumeBuild]
  rw [if_neg (by omega), if_neg (by omega)]
  simp only [buildTail]
  have hdm := Nat.div_add_mod (length - c.block_size) c.block_size
  have harith : c.block_size + (length - c.block_size) % c.block_size +
      (length - c.block_size) / c.block_size * c.block_size = length := by
    rw [Nat.mul_comm]
    omega
  by_cases hsm : 0 < (length - c.block_size) % c.block_size
  · rw [if_pos hsm]
    have hcond : (!true ||
        !(sliceLookup s1
          ((length - c.block_size) / c.block_size + 1)).isSome) = false := by
      rw [hsmallblk hsm]
      rfl
    rw [hcond]
    simp only [Bool.false_eq_true, if_false, cleanupSlices_of_absent s1
      c.block_count hnostray]
    rw [writeFullBlocks_resume g c.block_size (List.range' 1
      ((length - c.block_size) / c.block_size))
      ⟨⟨ConfigFile.valid c, s1⟩,
        c.block_size + (length - c.block_size) % c.block_size, [] ++ []⟩
      (by
        intro i hi
        rw [List.mem_range'_1] at hi
        obtain ⟨h1, h2⟩ := hi
        have := hfull (i - 1) (by omega)
        rwa [show 1 + (i - 1) = i by omega] at this)]
    simp [List.length_range', harith]
  · rw [if_neg hsm]
    rw [cleanupSlices_of_absent s1 c.block_count hnostray]
    rw [writeFullBlocks_resume g c.block_size (List.range' 1
      ((length - c.block_size) / c.block_size))
      ⟨⟨ConfigFile.valid c, s1⟩, c.block_size, [] ++ []⟩
      (by
        intro i hi
        rw [List.mem_range'_1] at hi
        obtain ⟨h1, h2⟩ := hi
        have := hfull (i - 1) (by omega)
        rwa [show 1 + (i - 1) = i by omega] at this)]
    have hsm0 : (length - c.block_size) % c.block_size = 0 := by omega
    have harith0 : c.block_size +
        (length - c.block_size) / c.block_size * c.block_size = length := by
      rw [Nat.mul_comm]
      omega
    simp [List.length_range', harith0]

/-! ## The config file does not influence a fresh build (`length ≥ 1`) -/

/-- For `length ≥ 1` the fresh-build branch overwrites the config before
any other divergence, so the prior state of `config.dat` is irrelevant. -/
theorem freshBuild_configFile_irrelevant (g : Nat → α) (ssize : Nat → Nat)
    (length budget : Nat) (cf cf' : ConfigFile) (s0 : List (Nat × List α))
    (ops1 : List (FileOp α)) (hlen : 1 ≤ length) :
    freshBuild g ssize length budget ⟨cf, s0⟩ ops1 =
      freshBuild g ssize length budget ⟨cf', s0⟩ ops1 := by
  obtain ⟨hbs1, hbs2⟩ := probeBlockSize_bounds ssize budget length hlen
  simp only [freshBuild]
  rw [if_neg (show ¬ length < probeBlockSize ssize budget length 0 by omega),
    if_neg (show ¬ probeBlockSize ssize budget length 0 = 0 by omega),
    if_neg (show ¬ length < probeBlockSize ssize budget length 0 by omega),
    if_neg (show ¬ probeBlockSize ssize budget length 0 = 0 by omega)]

/-! ## LRU ledger lemmas -/

/-- The hit-path pop/push loop is the standard "move to front". -/
theorem lruTouch_eq_erase (bi : Nat) (l : List Nat) :
    lruTouch bi l = bi :: l.erase bi := by
  induction l with
  | nil => rfl
  | cons a t ih =>
    by_cases h : a = bi
    · subst h
      simp [lruTouch, popUntil, List.erase_cons_head]
    · have hp : popUntil bi (a :: t) =
          (a :: (popUntil bi t).1, (popUntil bi t).2) := by
        simp [popUntil, h]
      have he : (a :: t).erase bi = a :: t.erase bi :=
        List.erase_cons_tail (by simpa using h)
      rw [lruTouch, hp, he]
      simp only [List.cons_append]
      rw [lruTouch] at ih
      injection ih with hh ht
      rw [ht]

theorem mruFold_append (l : List Nat) (a : Nat) :
    mruFold (l ++ [a]) = a :: (mruFold l).erase a := by
  simp [mruFold, List.foldl_append]

theorem mruFold_aux_nodup :
    ∀ (l r : List Nat), r.Nodup →
      (l.foldl (fun r a => a :: r.erase a) r).Nodup := by
  intro l
  induction l with
  | nil => intro r h; simpa using h
  | cons a t ih =>
    intro r h
    simp only [List.foldl_cons]
    refine ih (a :: r.erase a) ?_
    refine List.nodup_cons.mpr ⟨?_, h.erase a⟩
    intro hmem
    have := (h.mem_erase_iff).mp hmem
    exact this.1 rfl

theorem mruFold_nodup (l : List Nat) : (mruFold l).Nodup :=
  mruFold_aux_nodup l [] List.nodup_nil

theorem mruFold_aux_mem :
    ∀ (l r : List Nat) (b : Nat),
      b ∈ l.foldl (fun r a => a :: r.erase a) r ↔ b ∈ l ∨ b ∈ r := by
  intro l
  induction l with
  | nil => intro r b; simp
  | cons a t ih =>
    intro r b
    simp only [List.foldl_cons]
    rw [ih (a :: r.erase a) b]
    constructor
    · rintro (h | h)
      · exact Or.inl (List.mem_cons_of_mem a h)
      · rcases List.mem_cons.mp h with h | h
        · exact Or.inl (List.mem_cons.mpr (Or.inl h))
        · exact Or.inr (List.mem_of_mem_erase h)
    · rintro (h | h)
      · rcases List.mem_cons.mp h with h | h
        · exact Or.inr (List.mem_cons.mpr (Or.inl h))
        · exact Or.inl h
      · by_cases hab : b = a
        · exact Or.inr (List.mem_cons.mpr (Or.inl hab))
        · exact Or.inr (List.mem_cons.mpr (Or.inr (List.mem_erase_of_ne hab
            |>.mpr h)))

theorem mruFold_mem (l : List Nat) (b : Nat) : b ∈ mruFold l ↔ b ∈ l := by
  rw [mruFold, mruFold_aux_mem]
  simp

/-- Erasing an element found within the first `n` entries commutes with
truncation. -/
theorem take_erase_mem :
    ∀ (l : List Nat) (n a : Nat), a ∈ l.take n →
      (l.take n).erase a = (l.erase a).take (n - 1) := by
  intro l
  induction l with
  | nil => intro n a h; simp at h
  | cons b t ih =>
    intro n a h
    cases n with
    | zero => simp at h
    | succ m =>
      rw [List.take_succ_cons] at h ⊢
      by_cases hab : a = b
      · subst hab
        rw [List.erase_cons_head, List.erase_cons_head]
        simp
      · have hmem : a ∈ t.take m := by
          rcases List.mem_cons.mp h with h | h
          · exact absurd h hab
          · exact h
        cases m with
        | zero => simp at hmem
        | succ m' =>
          have hba : ¬ b = a := fun hx => hab hx.symm
          rw [List.erase_cons_tail (by simpa using hba),
            List.erase_cons_tail (by simpa using hba)]
          rw [Nat.succ_sub_one, List.take_succ_cons]
          rw [ih (m' + 1) a hmem, Nat.succ_sub_one]

/-- Erasing an element that does not occur within the first `n + 1`
entries leaves the first `n` entries unchanged. -/
theorem take_erase_not_mem :
    ∀ (l : List Nat) (n a : Nat), a ∉ l.take (n + 1) →
      (l.erase a).take n = l.take n := by
  intro l
  induction l with
  | nil => intro n a _; simp
  | cons b t ih =>
    intro n a h
    rw [List.take_succ_cons] at h
    have hab : ¬ b = a := fun hx => h (by rw [hx]; exact List.mem_cons_self a _)
    rw [List.erase_cons_tail (by simpa using hab)]
    cases n with
    | zero => simp
    | succ m =>
      rw [List.take_succ_cons, List.take_succ_cons]
      rw [ih m a (fun hx => h (List.mem_cons_of_mem b hx))]

theorem dropLast_take (l : List Nat) (k : Nat) (h : k ≤ l.length) :
    (l.take k).dropLast = l.take (k - 1) := by
  rw [List.dropLast_eq_take, List.length_take, List.take_take]
  congr 1
  omega

theorem touchedBlocks_append (ds : AcademyDataset α) (hist : List Nat)
    (idx : Nat) :
    touchedBlocks ds (hist ++ [idx]) =
      touchedBlocks ds hist ++
        (if idx / ds.block_size < ds.block_count
          then [idx / ds.block_size] else []) := by
  simp only [touchedBlocks, List.map_append, List.filter_append, List.map_cons,
    List.map_nil, List.filter_cons, List.filter_nil]
  split <;> simp_all

/-! ## One `get` call preserves the cache invariant -/

/-- A single `get` on a good dataset with `max_cached_blocks ≥ 1` never
panics, returns the on-disk item for its index, and preserves the cache
invariant extended by this access. -/
theorem dsGet_spec (ds : AcademyDataset α) (hGood : GoodDS ds)
    (hk : 1 ≤ ds.max_cached_blocks) (hist : List Nat) (st : CacheState α)
    (hInv : CacheInv ds hist st) (idx : Nat) :
    ∃ st', dsGet ds st idx = Except.ok (dsReadPure ds idx, st') ∧
      CacheInv ds (hist ++ [idx]) st' := by
  obtain ⟨hbs, hdisk⟩ := hGood
  obtain ⟨hled, hmem, hcont⟩ := hInv
  have hbs0 : ¬ ds.block_size = 0 := by omega
  by_cases hbc : ds.block_count ≤ idx / ds.block_size
  · -- block index past the slot array: `None`, state untouched
    refine ⟨st, ?_, ?_, hmem, hcont⟩
    · simp only [dsGet]
      rw [if_neg hbs0, if_pos hbc, dsReadPure, if_neg (by omega)]
    · rw [touchedBlocks_append, if_neg (by omega)]
      simpa using hled
  · push_neg at hbc
    have hsome := (hdisk (idx / ds.block_size) hbc).1
    have hnemp := (hdisk (idx / ds.block_size) hbc).2
    obtain ⟨blk, hblk⟩ := Option.isSome_iff_exists.mp hsome
    have hblkne : blk ≠ [] := by
      intro hnil
      rw [hblk, hnil] at hnemp
      simp at hnemp
    have hread : dsReadPure ds idx = blk.get? (idx % ds.block_size) := by
      rw [dsReadPure, if_pos hbc, hblk]
      rfl
    have hRapp : mruFold (touchedBlocks ds (hist ++ [idx])) =
        idx / ds.block_size ::
          (mruFold (touchedBlocks ds hist)).erase (idx / ds.block_size) := by
      rw [touchedBlocks_append, if_pos hbc, mruFold_append]
    by_cases hempty : (st.slots (idx / ds.block_size)).isEmpty
    · -- miss
      have hslotnil : st.slots (idx / ds.block_size) = [] :=
        List.isEmpty_iff.mp hempty
      have hbinotin : idx / ds.block_size ∉ st.ledger := by
        intro hx
        exact (hmem _).mp hx hslotnil
      by_cases hfull : ds.max_cached_blocks ≤ st.ledger.length
      · -- miss with eviction
        have hlenle : st.ledger.length ≤ ds.max_cached_blocks := by
          rw [hled]
          exact List.length_take_le _ _
        have hlen : st.ledger.length = ds.max_cached_blocks :=
          le_antisymm hlenle hfull
        have hRlen : ds.max_cached_blocks ≤
            (mruFold (touchedBlocks ds hist)).length := by
          rw [hled, List.length_take] at hlen
          omega
        have hlne : st.ledger ≠ [] := by
          intro h
          rw [h] at hlen
          simp at hlen
          omega
        have hlast : st.ledger.getLast? = some (st.ledger.getLast hlne) :=
          List.getLast?_eq_getLast _ hlne
        have hvin : st.ledger.getLast hlne ∈ st.ledger :=
          List.getLast_mem hlne
        have hvne : st.ledger.getLast hlne ≠ idx / ds.block_size := by
          intro h
          rw [h] at hvin
          exact hbinotin hvin
        have hnodup : st.ledger.Nodup := by
          rw [hled]
          exact (List.take_sublist _ _).nodup (mruFold_nodup _)
        have hsplit : st.ledger.dropLast ++ [st.ledger.getLast hlne] =
            st.ledger := List.dropLast_append_getLast hlne
        have hvnotdrop : st.ledger.getLast hlne ∉ st.ledger.dropLast := by
          have h2 : (st.ledger.dropLast ++ [st.ledger.getLast hlne]).Nodup := by
            rw [hsplit]
            exact hnodup
          have h3 := (List.nodup_append.mp h2).2.2
          intro hx
          exact h3 hx (List.mem_cons_self _ _)
        have hmemdrop : ∀ b, b ∈ st.ledger ↔
            b ∈ st.ledger.dropLast ∨ b = st.ledger.getLast hlne := by
          intro b
          conv_lhs => rw [← hsplit]
          simp
        have hgets : dsGet ds st idx =
            loadBlock ds
              ⟨Function.update st.slots (st.ledger.getLast hlne) [],
                st.ledger.dropLast⟩ (idx / ds.block_size) idx := by
          simp only [dsGet]
          rw [if_neg hbs0, if_neg (by omega), if_pos hempty, if_pos hfull,
            hlast]
        have hload : loadBlock ds
            ⟨Function.update st.slots (st.ledger.getLast hlne) [],
              st.ledger.dropLast⟩ (idx / ds.block_size) idx =
            Except.ok (blk.get? (idx % ds.block_size),
              ⟨Function.update
                 (Function.update st.slots (st.ledger.getLast hlne) [])
                 (idx / ds.block_size) blk,
                idx / ds.block_size :: st.ledger.dropLast⟩) := by
          simp only [loadBlock, hblk]
        refine ⟨_, by rw [hgets, hload, hread], ?_, ?_, ?_⟩
        · -- ledger formula
          show idx / ds.block_size :: st.ledger.dropLast = _
          rw [hRapp,
            show ds.max_cached_blocks = (ds.max_cached_blocks - 1) + 1 by omega,
            List.take_succ_cons]
          rw [take_erase_not_mem _ (ds.max_cached_blocks - 1) _ (by
            rw [show ds.max_cached_blocks - 1 + 1 = ds.max_cached_blocks by
              omega]
            rw [hled] at hbinotin
            exact hbinotin)]
          rw [hled, dropLast_take _ _ hRlen]
        · -- residency
          dsimp only
          intro b
          by_cases hb : b = idx / ds.block_size
          · subst hb
            simp [Function.update_same, hblkne]
          · rw [Function.update_noteq hb]
            by_cases hbv : b = st.ledger.getLast hlne
            · subst hbv
              rw [Function.update_same]
              simp only [List.mem_cons]
              constructor
              · rintro (h | h)
                · exact absurd h hvne
                · exact absurd h hvnotdrop
              · intro h
                exact absurd rfl h
            · rw [Function.update_noteq hbv]
              rw [List.mem_cons]
              constructor
              · rintro (h | h)
                · exact absurd h hb
                · exact (hmem b).mp ((hmemdrop b).mpr (Or.inl h))
              · intro h
                have hbl := (hmem b).mpr h
                rcases (hmemdrop b).mp hbl with h2 | h2
                · exact Or.inr h2
                · exact absurd h2 hbv
        · -- resident contents
          dsimp only
          intro b hbmem
          rcases List.mem_cons.mp hbmem with hb | hb
          · subst hb
            rw [Function.update_same, hblk]
          · have hbv : b ≠ st.ledger.getLast hlne := by
              intro h
              rw [h] at hb
              exact hvnotdrop hb
            have hbbi : b ≠ idx / ds.block_size := by
              intro h
              rw [h] at hb
              have := (hmemdrop (idx / ds.block_size)).mpr (Or.inl hb)
              exact hbinotin this
            rw [Function.update_noteq hbbi, Function.update_noteq hbv]
            exact hcont b ((hmemdrop b).mpr (Or.inl hb))
      · -- miss without eviction
        push_neg at hfull
        have hRshort : (mruFold (touchedBlocks ds hist)).length <
            ds.max_cached_blocks := by
          rw [hled, List.length_take] at hfull
          omega
        have hledR : st.ledger = mruFold (touchedBlocks ds hist) := by
          rw [hled]
          exact List.take_of_length_le (by omega)
        have hbinotR : idx / ds.block_size ∉
            mruFold (touchedBlocks ds hist) := by
          rw [← hledR]
          exact hbinotin
        have hgets : dsGet ds st idx =
            loadBlock ds st (idx / ds.block_size) idx := by
          simp only [dsGet]
          rw [if_neg hbs0, if_neg (by omega), if_pos hempty,
            if_neg (by omega)]
        have hload : loadBlock ds st (idx / ds.block_size) idx =
            Except.ok (blk.get? (idx % ds.block_size),
              ⟨Function.update st.slots (idx / ds.block_size) blk,
                idx / ds.block_size :: st.ledger⟩) := by
          simp only [loadBlock, hblk]
        refine ⟨_, by rw [hgets, hload, hread], ?_, ?_, ?_⟩
        · show idx / ds.block_size :: st.ledger = _
          rw [hRapp, List.erase_of_not_mem hbinotR, hledR]
          rw [List.take_of_length_le (by simp; omega)]
        · dsimp only
          intro b
          by_cases hb : b = idx / ds.block_size
          · subst hb
            simp [Function.update_same, hblkne]
          · rw [Function.update_noteq hb, List.mem_cons]
            constructor
            · rintro (h | h)
              · exact absurd h hb
              · exact (hmem b).mp h
            · intro h
              exact Or.inr ((hmem b).mpr h)
        · dsimp only
          intro b hbmem
          rcases List.mem_cons.mp hbmem with hb | hb
          · subst hb
            rw [Function.update_same, hblk]
          · have hbbi : b ≠ idx / ds.block_size := by
              intro h
              rw [h] at hb
              exact hbinotin hb
            rw [Function.update_noteq hbbi]
            exact hcont b hb
    · -- hit
      have hslotne : st.slots (idx / ds.block_size) ≠ [] := by
        intro h
        rw [h] at hempty
        simp at hempty
      have hbiin : idx / ds.block_size ∈ st.ledger := (hmem _).mpr hslotne
      have hgets : dsGet ds st idx =
          Except.ok ((st.slots (idx / ds.block_size)).get?
              (idx % ds.block_size),
            ⟨st.slots, lruTouch (idx / ds.block_size) st.ledger⟩) := by
        simp only [dsGet]
        rw [if_neg hbs0, if_neg (by omega), if_neg hempty]
      have hblkslot : blk = st.slots (idx / ds.block_size) := by
        have := hcont _ hbiin
        rw [hblk] at this
        exact Option.some.inj this
      refine ⟨_, by rw [hgets, hread, hblkslot], ?_, ?_, ?_⟩
      · show lruTouch (idx / ds.block_size) st.ledger = _
        rw [lruTouch_eq_erase, hRapp, hled,
          take_erase_mem _ _ _ (by rw [← hled]; exact hbiin)]
        rw [show ds.max_cached_blocks = (ds.max_cached_blocks - 1) + 1 by
          omega, List.take_succ_cons]
        rw [show ds.max_cached_blocks - 1 + 1 - 1 = ds.max_cached_blocks - 1
          by omega]
      · dsimp only
        intro b
        rw [lruTouch_eq_erase, List.mem_cons]
        by_cases hb : b = idx / ds.block_size
        · subst hb
          simp [hslotne]
        · constructor
          · rintro (h | h)
            · exact absurd h hb
            · exact (hmem b).mp (List.mem_of_mem_erase h)
          · intro h
            exact Or.inr ((List.mem_erase_of_ne hb).mpr ((hmem b).mpr h))
      · dsimp only
        intro b hbmem
        rw [lruTouch_eq_erase] at hbmem
        rcases List.mem_cons.mp hbmem with hb | hb
        · subst hb
          exact hcont _ hbiin
        · exact hcont b (List.mem_of_mem_erase hb)

/-- The state right after `AcademyDataset::new` satisfies the cache
invariant with an empty history. -/
theorem cacheInv_init (ds : AcademyDataset α) : CacheInv ds [] (initCache α) := by
  refine ⟨?_, ?_, ?_⟩
  · simp [initCache, touchedBlocks, mruFold]
  · intro b
    simp [initCache]
  · intro b hb
    simp [initCache] at hb

/-- Any sequence of `get` calls on a good dataset with
`max_cached_blocks ≥ 1` succeeds and preserves the cache invariant. -/
theorem runGets_spec (ds : AcademyDataset α) (hGood : GoodDS ds)
    (hk : 1 ≤ ds.max_cached_blocks) :
    ∀ (accesses hist : List Nat) (st : CacheState α), CacheInv ds hist st →
      ∃ st', runGets ds accesses st = Except.ok st' ∧
        CacheInv ds (hist ++ accesses) st' := by
  intro accesses
  induction accesses with
  | nil =>
    intro hist st h
    exact ⟨st, rfl, by simpa using h⟩
  | cons a rest ih =>
    intro hist st h
    obtain ⟨st1, heq, hinv1⟩ := dsGet_spec ds hGood hk hist st h a
    obtain ⟨st2, heq2, hinv2⟩ := ih (hist ++ [a]) st1 hinv1
    refine ⟨st2, ?_, ?_⟩
    · simp only [runGets, heq]
      exact heq2
    · rw [List.append_assoc] at hinv2
      simpa using hinv2

/-- `AcademyDataset::new` on a directory with a valid manifest. -/
theorem openDataset_fields (d : DataDir α) (k : Nat)
    (c : AcademyDatasetConfig) (hc : d.configFile = ConfigFile.valid c) :
    openDataset d k = some ⟨c.block_count, c.length, c.block_size, k,
      fun i => sliceLookup d.slices i⟩ := by
  obtain ⟨cf, s⟩ := d
  simp only at hc
  subst hc
  rfl

theorem map_range'_isEmpty_false (g : Nat → α) (s n : Nat) (h : 1 ≤ n) :
    ((List.range' s n).map g).isEmpty = false := by
  rw [List.isEmpty_eq_false]
  intro hx
  have hlen := congrArg List.length hx
  simp [List.length_range'] at hlen
  omega

/-- The dataset opened on a freshly built clean directory: manifest
fields, goodness, and the exact item returned for every index. -/
theorem builtDataset_spec (g : Nat → α) (ssize : Nat → Nat)
    (budget length k : Nat) (bs small remaining bc : Nat)
    (hbs : bs = probeBlockSize ssize budget length 0)
    (hsmall : small = (length - bs) % bs)
    (hrem : remaining = (length - bs) / bs)
    (hbc : bc = if 0 < small then remaining + 2 else remaining + 1)
    (hlen : 1 ≤ length) (ds : AcademyDataset α)
    (hds : openDataset
        (create_dataset g ssize length budget (cleanDir α)).dir k =
      some ds) :
    ds.block_size = bs ∧ ds.block_count = bc ∧ ds.length = length ∧
    ds.max_cached_blocks = k ∧ GoodDS ds ∧
    (∀ idx, idx < length →
      dsReadPure ds idx = some (g (buildIndex bs small remaining idx))) ∧
    (∀ idx, length ≤ idx → dsReadPure ds idx = none) := by
  obtain ⟨hpan, hcfg, hpos, hlook0, hlookfull, hlooksmall, hlookstray⟩ :=
    create_dataset_fresh_spec g ssize length budget (cleanDir α)
      bs small remaining bc hbs hsmall hrem hbc hlen
      (by intro c hc; simp [cleanDir] at hc)
  obtain ⟨hbs1, hbs2⟩ := probeBlockSize_bounds ssize budget length hlen
  rw [← hbs] at hbs1 hbs2
  rw [openDataset_fields _ k ⟨budget, bc, bs, length⟩ hcfg] at hds
  have hdseq : ds = ⟨bc, length, bs, k,
      fun i => sliceLookup
        (create_dataset g ssize length budget (cleanDir α)).dir.slices i⟩ :=
    (Option.some.inj hds).symm
  subst hdseq
  have hdm := Nat.div_add_mod (length - bs) bs
  rw [← hrem, ← hsmall] at hdm
  have hlsum : bs + (bs * remaining + small) = length := by
    rw [hdm]
    omega
  have hsmbs : small < bs := by
    rw [hsmall]
    exact Nat.mod_lt _ (by omega)
  have hbc1 : 1 ≤ bc := by
    rw [hbc]
    split <;> omega
  have hstray_none : ∀ j, bc ≤ j →
      sliceLookup
        (create_dataset g ssize length budget (cleanDir α)).dir.slices j =
        none := by
    intro j hj
    rw [hlookstray j hj]
    split <;> simp [cleanDir, sliceLookup_nil]
  have hbcbound : bc * bs ≤ length + bs := by
    rw [hbc]
    split
    · have : (remaining + 2) * bs = bs * remaining + bs + bs := by ring
      omega
    · have : (remaining + 1) * bs = bs * remaining + bs := by ring
      omega
  refine ⟨rfl, rfl, rfl, rfl, ⟨by simpa using hbs1, ?_⟩, ?_, ?_⟩
  · -- every block file below `block_count` is present and non-empty
    intro i hi
    dsimp only at hi ⊢
    rcases Nat.eq_zero_or_pos i with hi0 | hipos
    · subst hi0
      rw [hlook0]
      exact ⟨rfl, by
        simp only [Option.getD_some]
        exact map_range'_isEmpty_false g 0 bs (by omega)⟩
    · by_cases hismall : 0 < small ∧ i = remaining + 1
      · rw [hismall.2, hlooksmall hismall.1]
        exact ⟨rfl, by
          simp only [Option.getD_some]
          exact map_range'_isEmpty_false g bs small (by omega)⟩
      · have hile : i ≤ remaining := by
          rw [hbc] at hi
          by_cases hs : 0 < small
          · rcases Nat.lt_or_ge i (remaining + 1) with h | h
            · omega
            · exfalso
              rw [if_pos hs] at hi
              exact hismall ⟨hs, by omega⟩
          · rw [if_neg hs] at hi
            omega
        have hlk := hlookfull (i - 1) (by omega)
        rw [show 1 + (i - 1) = i by omega] at hlk
        rw [hlk]
        exact ⟨rfl, by
          simp only [Option.getD_some]
          exact map_range'_isEmpty_false g _ bs (by omega)⟩
  · -- read-back of every in-range index
    intro idx hidx
    have hdmi := Nat.div_add_mod idx bs
    have hmodlt : idx % bs < bs := Nat.mod_lt _ (by omega)
    rcases Nat.lt_or_ge idx bs with hc1 | hc1
    · -- block 0
      have hdiv : idx / bs = 0 := Nat.div_eq_of_lt hc1
      have hmod : idx % bs = idx := Nat.mod_eq_of_lt hc1
      rw [dsReadPure]
      dsimp only
      rw [hdiv, if_pos (by omega), hlook0]
      simp only [Option.getD_some]
      rw [buildIndex, if_pos hc1, hmod, List.get?_map, List.get?_range' 0 1 hc1]
      simp
    · rcases Nat.lt_or_ge idx ((remaining + 1) * bs) with hc2 | hc2
      · -- a full block `1..=remaining`
        have hdiv1 : 1 ≤ idx / bs := by
          rw [Nat.le_div_iff_mul_le (by omega)]
          omega
        have hdivle : idx / bs < remaining + 1 := by
          rw [Nat.div_lt_iff_lt_mul (by omega)]
          exact hc2
        have hlk := hlookfull (idx / bs - 1) (by omega)
        rw [show 1 + (idx / bs - 1) = idx / bs by omega] at hlk
        rw [dsReadPure]
        dsimp only
        rw [if_pos (by
          rw [hbc]
          split <;> omega), hlk]
        simp only [Option.getD_some]
        rw [buildIndex, if_neg (by omega), if_pos hc2, List.get?_map,
          List.get?_range' _ 1 hmodlt]
        have harg : bs + small + (idx / bs - 1) * bs + 1 * (idx % bs) =
            idx + small := by
          have hx : (idx / bs - 1) * bs + bs = (idx / bs) * bs := by
            have : idx / bs - 1 + 1 = idx / bs := by omega
            calc (idx / bs - 1) * bs + bs = (idx / bs - 1 + 1) * bs := by ring
            _ = (idx / bs) * bs := by rw [this]
          have hy : (idx / bs) * bs + idx % bs = idx := by
            rw [Nat.mul_comm (idx / bs) bs]
            exact hdmi
          omega
        rw [harg]
        rfl
      · -- the trailing remainder block
        have hsm0 : 0 < small := by
          rcases Nat.eq_zero_or_pos small with h | h
          · exfalso
            have : bs * remaining + bs = length := by omega
            have : (remaining + 1) * bs = length := by
              calc (remaining + 1) * bs = bs * remaining + bs := by ring
              _ = length := this
            omega
          · exact h
        have hlensmall : length = (remaining + 1) * bs + small := by
          calc length = bs + (bs * remaining + small) := hlsum.symm
          _ = (remaining + 1) * bs + small := by ring
        have hdiv : idx / bs = remaining + 1 := by
          refine Nat.div_eq_of_lt_le (by linarith [hc2]) ?_
          calc idx < length := hidx
          _ = (remaining + 1) * bs + small := hlensmall
          _ ≤ (remaining + 1) * bs + bs := by omega
          _ = (remaining + 1 + 1) * bs := by ring
        have hmod : idx % bs = idx - (remaining + 1) * bs := by
          have := hdmi
          rw [hdiv] at this
          have hz : bs * (remaining + 1) = (remaining + 1) * bs := by ring
          omega
        have hmodsm : idx % bs < small := by
          rw [hmod]
          omega
        rw [dsReadPure]
        dsimp only
        rw [hdiv, if_pos (by rw [hbc, if_pos hsm0]; omega),
          hlooksmall hsm0]
        simp only [Option.getD_some]
        rw [buildIndex, if_neg (by omega), if_neg (by omega), List.get?_map,
          List.get?_range' _ 1 hmodsm]
        rw [hmod]
        simp
  · -- out-of-range read-back
    intro idx hidx
    rw [dsReadPure]
    dsimp only
    by_cases hinb : idx / bs < bc
    · -- only possible within the remainder block's padding region
      have hsm0 : 0 < small := by
        by_contra hs
        have hsmz : small = 0 := by omega
        have hlen2 : length = (remaining + 1) * bs := by
          calc length = bs + (bs * remaining + small) := hlsum.symm
          _ = (remaining + 1) * bs := by rw [hsmz]; ring
        rw [hbc, if_neg hs] at hinb
        have : idx < (remaining + 1) * bs := by
          rw [Nat.div_lt_iff_lt_mul (by omega)] at hinb
          exact hinb
        omega
      have hlensmall : length = (remaining + 1) * bs + small := by
        calc length = bs + (bs * remaining + small) := hlsum.symm
        _ = (remaining + 1) * bs + small := by ring
      rw [hbc, if_pos hsm0] at hinb
      have hdiv : idx / bs = remaining + 1 := by
        refine Nat.div_eq_of_lt_le ?_ ?_
        · calc (remaining + 1) * bs ≤ length := by omega
          _ ≤ idx := hidx
        · rw [Nat.div_lt_iff_lt_mul (by omega)] at hinb
          exact hinb
      have hdmi := Nat.div_add_mod idx bs
      have hmod : small ≤ idx % bs := by
        rw [hdiv] at hdmi
        have hz : bs * (remaining + 1) = (remaining + 1) * bs := by ring
        omega
      rw [if_pos (by rw [hbc, if_pos hsm0]; omega), hdiv,
        hlooksmall hsm0]
      simp only [Option.getD_some]
      rw [List.get?_eq_none.mpr]
      simp [List.length_range']
      omega
    · rw [if_neg hinb]

theorem map_shift_range' :
    ∀ (n s t : Nat),
      (List.range' s n).map (fun i => t + (i - s)) = List.range' t n := by
  intro n
  induction n with
  | zero => intro s t; rfl
  | succ m ih =>
    intro s t
    rw [List.range'_succ, List.range'_succ]
    simp only [List.map_cons, Nat.sub_self, Nat.add_zero]
    congr 1
    rw [List.map_congr_left (g := fun i => (t + 1) + (i - (s + 1)))
      (by
        intro a ha
        rw [List.mem_range'_1] at ha
        show t + (a - s) = t + 1 + (a - (s + 1))
        omega)]
    exact ih (s + 1) (t + 1)

/-- Read-back order is a permutation of generation order: `buildIndex`
permutes `0..length`. -/
theorem buildIndex_perm (bs small remaining length : Nat)
    (hbs : 1 ≤ bs) (hsm : small < bs)
    (hlen : length = bs + small + remaining * bs) :
    ((List.range length).map (fun i => buildIndex bs small remaining i)).Perm
      (List.range length) := by
  have h1 : List.range' bs (remaining * bs) ++
      List.range' (bs + remaining * bs) small =
      List.range' bs (small + remaining * bs) := by
    simpa using List.range'_append bs (remaining * bs) small 1
  have h2 : List.range' 0 bs ++ List.range' bs (small + remaining * bs) =
      List.range' 0 (small + remaining * bs + bs) := by
    simpa using List.range'_append 0 bs (small + remaining * bs) 1
  have h3 : List.range' bs small ++
      List.range' (bs + small) (remaining * bs) =
      List.range' bs (remaining * bs + small) := by
    simpa using List.range'_append bs small (remaining * bs) 1
  have h4 : List.range' 0 bs ++ List.range' bs (remaining * bs + small) =
      List.range' 0 (remaining * bs + small + bs) := by
    simpa using List.range'_append 0 bs (remaining * bs + small) 1
  have hsplitread : List.range length =
      List.range' 0 bs ++ (List.range' bs (remaining * bs) ++
        List.range' (bs + remaining * bs) small) := by
    rw [h1, h2, List.range_eq_range']
    congr 1
    omega
  have hgeneq : List.range length =
      List.range' 0 bs ++ (List.range' bs small ++
        List.range' (bs + small) (remaining * bs)) := by
    rw [h3, h4, List.range_eq_range']
    congr 1
    omega
  have hmapA : (List.range' 0 bs).map
      (fun i => buildIndex bs small remaining i) = List.range' 0 bs := by
    rw [List.map_congr_left (g := fun i => i)
      (by
        intro a ha
        rw [List.mem_range'_1] at ha
        rw [buildIndex, if_pos (by omega)])]
    exact List.map_id _
  have hmapB : (List.range' bs (remaining * bs)).map
      (fun i => buildIndex bs small remaining i) =
      List.range' (bs + small) (remaining * bs) := by
    rw [List.map_congr_left (g := fun i => (bs + small) + (i - bs))
      (by
        intro a ha
        rw [List.mem_range'_1] at ha
        have hup : a < (remaining + 1) * bs := by
          have : (remaining + 1) * bs = bs + remaining * bs := by ring
          omega
        rw [buildIndex, if_neg (by omega), if_pos hup]
        show a + small = bs + small + (a - bs)
        omega)]
    exact map_shift_range' (remaining * bs) bs (bs + small)
  have hmapC : (List.range' (bs + remaining * bs) small).map
      (fun i => buildIndex bs small remaining i) =
      List.range' bs small := by
    rw [List.map_congr_left (g := fun i => bs + (i - (bs + remaining * bs)))
      (by
        intro a ha
        rw [List.mem_range'_1] at ha
        have heq : (remaining + 1) * bs = bs + remaining * bs := by ring
        rw [buildIndex, if_neg (by omega), if_neg (by omega), heq])]
    exact map_shift_range' small (bs + remaining * bs) bs
  conv_lhs => rw [hsplitread]
  conv_rhs => rw [hgeneq]
  rw [List.map_append, List.map_append, hmapA, hmapB, hmapC]
  exact List.Perm.append_left _ List.perm_append_comm

/-- `mruFold` enumerates exactly the distinct touched blocks. -/
theorem mruFold_length_dedup (l : List Nat) :
    (mruFold l).length = l.dedup.length := by
  have h1 : (mruFold l).Nodup := mruFold_nodup l
  have h2 : l.dedup.Nodup := l.nodup_dedup
  have hset : (mruFold l).toFinset = l.dedup.toFinset := by
    ext a
    simp [List.mem_toFinset, mruFold_mem, List.mem_dedup]
  calc (mruFold l).length = (mruFold l).toFinset.card :=
    (List.toFinset_card_of_nodup h1).symm
  _ = l.dedup.toFinset.card := by rw [hset]
  _ = l.dedup.length := List.toFinset_card_of_nodup h2

/-! ## Claim theorems -/

/-- Claim C10: `build` requires `length ≥ 1`.  For `length = 0` with no
matching prior manifest the size-probing loop produces zero items, an
empty `0.slice` is written, no manifest is written, and `create_dataset`
panics computing `(length - block_size) % block_size` (remainder by zero);
for every `length ≥ 1` the derived `block_size` is at least 1 and the
build completes without a panic. -/
theorem c10_zero_length_panics (g : Nat → α) (ssize : Nat → Nat)
    (budget length : Nat) :
    ((create_dataset g ssize 0 budget (cleanDir α)).panicked =
        some BuildPanic.modZero ∧
      sliceLookup (create_dataset g ssize 0 budget (cleanDir α)).dir.slices 0 =
        some [] ∧
      (create_dataset g ssize 0 budget (cleanDir α)).dir.configFile =
        ConfigFile.missing) ∧
    (1 ≤ length →
      1 ≤ probeBlockSize ssize budget length 0 ∧
      probeBlockSize ssize budget length 0 ≤ length ∧
      (create_dataset g ssize length budget (cleanDir α)).panicked = none) := by
  constructor
  · exact ⟨rfl, rfl, rfl⟩
  · intro hlen
    obtain ⟨h1, h2⟩ := probeBlockSize_bounds ssize budget length hlen
    refine ⟨h1, h2, ?_⟩
    exact (create_dataset_fresh_spec g ssize length budget (cleanDir α)
      _ _ _ _ rfl rfl rfl rfl hlen
      (by intro c hc; simp [cleanDir] at hc)).1

/-- Witness for C10 at `g = id`, `ssize = id`, `budget = 2`,
`length = 5`. -/
theorem c10_zero_length_panics_witness :
    1 ≤ 5 ∧
    (1 ≤ probeBlockSize (fun n => n) 2 5 0 ∧
      probeBlockSize (fun n => n) 2 5 0 ≤ 5 ∧
      (create_dataset (fun n => n) (fun n => n) 5 2
        (cleanDir Nat)).panicked = none) :=
  ⟨by decide,
    (c10_zero_length_panics (fun n => n) (fun n => n) 2 5).2 (by decide)⟩

/-- Claim C3: after a fresh build with `length ≥ 1`, the persisted manifest
is layout-consistent: `block_count = (length - block_size) / block_size +
1`, plus one more exactly when `(length - block_size) % block_size > 0`,
for every `(length, memory_budget)` pair (boundary cases included since
`length` and `budget` are universally quantified). -/
theorem c3_manifest_layout (g : Nat → α) (ssize : Nat → Nat)
    (budget length : Nat) (hlen : 1 ≤ length) :
    ∃ c, (create_dataset g ssize length budget
        (cleanDir α)).dir.configFile = ConfigFile.valid c ∧
      (create_dataset g ssize length budget (cleanDir α)).panicked = none ∧
      c.length = length ∧ c.block_memory_size = budget ∧
      1 ≤ c.block_size ∧ c.block_size ≤ length ∧
      c.block_count = (length - c.block_size) / c.block_size + 1 +
        (if 0 < (length - c.block_size) % c.block_size then 1 else 0) := by
  obtain ⟨hpan, hcfg, -⟩ :=
    create_dataset_fresh_spec g ssize length budget (cleanDir α)
      _ _ _ _ rfl rfl rfl rfl hlen
      (by intro c hc; simp [cleanDir] at hc)
  obtain ⟨hbs1, hbs2⟩ := probeBlockSize_bounds ssize budget length hlen
  refine ⟨_, hcfg, hpan, rfl, rfl, hbs1, hbs2, ?_⟩
  show (if 0 < (length - probeBlockSize ssize budget length 0) %
        probeBlockSize ssize budget length 0 then
      (length - probeBlockSize ssize budget length 0) /
        probeBlockSize ssize budget length 0 + 2
    else (length - probeBlockSize ssize budget length 0) /
        probeBlockSize ssize budget length 0 + 1) = _
  split <;> simp

/-- Witness for C3 at `length = 5`, `budget = 2`, one-byte items
(`block_size` probes to 2, so a remainder block exists). -/
theorem c3_manifest_layout_witness :
    1 ≤ 5 ∧
    ∃ c, (create_dataset (fun n => n) (fun n => n) 5 2
        (cleanDir Nat)).dir.configFile = ConfigFile.valid c ∧
      (create_dataset (fun n => n) (fun n => n) 5 2
        (cleanDir Nat)).panicked = none ∧
      c.length = 5 ∧ c.block_memory_size = 2 ∧
      1 ≤ c.block_size ∧ c.block_size ≤ 5 ∧
      c.block_count = (5 - c.block_size) / c.block_size + 1 +
        (if 0 < (5 - c.block_size) % c.block_size then 1 else 0) :=
  ⟨by decide, c3_manifest_layout (fun n => n) (fun n => n) 2 5 (by decide)⟩

/-- Claim C6: re-invoking `build` with identical `length`, `memory_budget`
and an equivalent deterministic generator against a directory holding a
completed build writes no files: the directory (every block file and the
manifest) is unchanged, the operation log of the second run is empty, it
does not panic, and it only skip-advances the generator past each
already-present block (final position `length`). -/
theorem c6_rebuild_noop (g : Nat → α) (ssize : Nat → Nat)
    (budget length : Nat) (hlen : 1 ≤ length) :
    create_dataset g ssize length budget
        (create_dataset g ssize length budget (cleanDir α)).dir =
      ⟨(create_dataset g ssize length budget (cleanDir α)).dir, length,
        [], none⟩ := by
  obtain ⟨hpan, hcfg, hpos, hlook0, hlookfull, hlooksmall, hlookstray⟩ :=
    create_dataset_fresh_spec g ssize length budget (cleanDir α)
      _ _ _ _ rfl rfl rfl rfl hlen
      (by intro c hc; simp [cleanDir] at hc)
  obtain ⟨hbs1, hbs2⟩ := probeBlockSize_bounds ssize budget length hlen
  have hdir : (create_dataset g ssize length budget (cleanDir α)).dir =
      ⟨ConfigFile.valid
        ⟨budget,
          if 0 < (length - probeBlockSize ssize budget length 0) %
              probeBlockSize ssize budget length 0 then
            (length - probeBlockSize ssize budget length 0) /
              probeBlockSize ssize budget length 0 + 2
          else (length - probeBlockSize ssize budget length 0) /
              probeBlockSize ssize budget length 0 + 1,
          probeBlockSize ssize budget length 0, length⟩,
        (create_dataset g ssize length budget (cleanDir α)).dir.slices⟩ := by
    rw [← hcfg]
  rw [hdir]
  refine create_dataset_resume_noop g ssize length budget _ _ rfl hbs1 hbs2
    ?_ ?_ ?_
  · intro hsm
    rw [hlooksmall hsm]
    rfl
  · intro t ht
    rw [hlookfull t ht]
    rfl
  · have := hlookstray _ (le_refl _)
    rw [this]
    split <;> simp [cleanDir, sliceLookup_nil]

/-- Witness for C6 at `length = 5`, `budget = 2`: the second build run is
a literal no-op. -/
theorem c6_rebuild_noop_witness :
    1 ≤ 5 ∧
    create_dataset (fun n => n) (fun n => n) 5 2
        (create_dataset (fun n => n) (fun n => n) 5 2 (cleanDir Nat)).dir =
      ⟨(create_dataset (fun n => n) (fun n => n) 5 2 (cleanDir Nat)).dir, 5,
        [], none⟩ :=
  ⟨by decide, c6_rebuild_noop (fun n => n) (fun n => n) 2 5 (by decide)⟩

/-- Counterexample to claim C7: building `length = 6` (so `block_count =
3`) over a directory holding a stray non-contiguous `4.slice` (no
`3.slice`) completes successfully, yet `4.slice` survives with index
`4 ≥ block_count`: the cleanup loop stops at the first missing index. -/
theorem c7_counterexample :
    (create_dataset (fun n => n) (fun n => n) 6 2
        ⟨ConfigFile.missing, [(4, [99])]⟩).panicked = none ∧
    (create_dataset (fun n => n) (fun n => n) 6 2
        ⟨ConfigFile.missing, [(4, [99])]⟩).dir.configFile =
      ConfigFile.valid ⟨2, 3, 2, 6⟩ ∧
    sliceLookup (create_dataset (fun n => n) (fun n => n) 6 2
        ⟨ConfigFile.missing, [(4, [99])]⟩).dir.slices 4 = some [99] ∧
    3 ≤ 4 := by
  exact ⟨rfl, rfl, by decide, by decide⟩

/-- Claim C7 as amended: after a successful fresh build that does not take
the single-block early return (`block_size < length`), the manifest
matches the new `length`, and a block file `{j}.slice` with
`j ≥ block_count` is deleted exactly when every index in
`block_count..j` was present — stray files beyond a gap in that run (as a
previous partial run can leave) survive. -/
theorem c7_stale_cleanup (g : Nat → α) (ssize : Nat → Nat)
    (budget length : Nat) (d0 : DataDir α) (bs small remaining bc : Nat)
    (hbs : bs = probeBlockSize ssize budget length 0)
    (hsmall : small = (length - bs) % bs)
    (hrem : remaining = (length - bs) / bs)
    (hbc : bc = if 0 < small then remaining + 2 else remaining + 1)
    (hlen : 1 ≤ length)
    (hcf : ∀ c, d0.configFile = ConfigFile.valid c → ¬ c.length = length)
    (hblt : bs < length) :
    (create_dataset g ssize length budget d0).panicked = none ∧
    (create_dataset g ssize length budget d0).dir.configFile =
      ConfigFile.valid ⟨budget, bc, bs, length⟩ ∧
    (∀ j, bc ≤ j →
      sliceLookup (create_dataset g ssize length budget d0).dir.slices j =
        if ∀ m ≤ j, bc ≤ m → (sliceLookup d0.slices m).isSome = true
        then none else sliceLookup d0.slices j) := by
  obtain ⟨hpan, hcfg, hpos, hlook0, hlookfull, hlooksmall, hlookstray⟩ :=
    create_dataset_fresh_spec g ssize length budget d0
      bs small remaining bc hbs hsmall hrem hbc hlen hcf
  refine ⟨hpan, hcfg, ?_⟩
  intro j hj
  rw [hlookstray j hj]
  by_cases hc : ∀ m ≤ j, bc ≤ m → (sliceLookup d0.slices m).isSome = true
  · rw [if_pos ⟨hc, hblt⟩, if_pos hc]
  · rw [if_neg (fun hx => hc hx.1), if_neg hc]

/-- Witness for C7 (amended) at the counterexample instance: the
contiguous stray run from `block_count` would be deleted, while the
stray `4.slice` beyond the gap at index 3 survives. -/
theorem c7_stale_cleanup_witness :
    1 ≤ 6 ∧ 2 < 6 ∧
    ((create_dataset (fun n => n) (fun n => n) 6 2
        ⟨ConfigFile.missing, [(4, [99])]⟩).panicked = none ∧
    (create_dataset (fun n => n) (fun n => n) 6 2
        ⟨ConfigFile.missing, [(4, [99])]⟩).dir.configFile =
      ConfigFile.valid ⟨2, 3, 2, 6⟩ ∧
    (∀ j, 3 ≤ j →
      sliceLookup (create_dataset (fun n => n) (fun n => n) 6 2
          ⟨ConfigFile.missing, [(4, [99])]⟩).dir.slices j =
        if ∀ m ≤ j, 3 ≤ m →
            (sliceLookup [(4, [99])] m).isSome = true
        then none else sliceLookup [(4, [99])] j)) :=
  ⟨by decide, by decide,
    c7_stale_cleanup (fun n => n) (fun n => n) 2 6
      ⟨ConfigFile.missing, [(4, [99])]⟩ 2 0 2 3 (by decide) (by decide)
      (by decide) (by decide) (by decide)
      (by intro c hc; simp at hc) (by decide)⟩

/-- Counterexample to claim C8: a build over a directory whose
`config.dat` is present but undeserializable does not abort — it
completes as a fresh build (no panic), overwrites the config with a
fresh manifest, and writes files. -/
theorem c8_counterexample :
    (create_dataset (fun n => n) (fun n => n) 2 1
        (⟨ConfigFile.corrupt, []⟩ : DataDir Nat)).panicked = none ∧
    (create_dataset (fun n => n) (fun n => n) 2 1
        (⟨ConfigFile.corrupt, []⟩ : DataDir Nat)).dir.configFile =
      ConfigFile.valid ⟨1, 2, 1, 2⟩ ∧
    (create_dataset (fun n => n) (fun n => n) 2 1
        (⟨ConfigFile.corrupt, []⟩ : DataDir Nat)).ops ≠ [] := by
  exact ⟨rfl, rfl, by decide⟩

/-- Claim C8 as amended: an existing `config.dat` that does not
deserialize is silently ignored — for `length ≥ 1` the build behaves
exactly as if the config file were absent (a fresh build that overwrites
`config.dat`) and completes without aborting. -/
theorem c8_corrupt_config_ignored (g : Nat → α) (ssize : Nat → Nat)
    (budget length : Nat) (s0 : List (Nat × List α)) (hlen : 1 ≤ length) :
    create_dataset g ssize length budget ⟨ConfigFile.corrupt, s0⟩ =
      create_dataset g ssize length budget ⟨ConfigFile.missing, s0⟩ ∧
    (create_dataset g ssize length budget
      ⟨ConfigFile.corrupt, s0⟩).panicked = none := by
  constructor
  · show freshBuild g ssize length budget ⟨ConfigFile.corrupt, s0⟩ [] =
      freshBuild g ssize length budget ⟨ConfigFile.missing, s0⟩ []
    exact freshBuild_configFile_irrelevant g ssize length budget _ _ s0 []
      hlen
  · exact (create_dataset_fresh_spec g ssize length budget
      ⟨ConfigFile.corrupt, s0⟩ _ _ _ _ rfl rfl rfl rfl hlen
      (by intro c hc; simp at hc)).1

/-- Witness for C8 (amended) at `length = 2`, `budget = 1`. -/
theorem c8_corrupt_config_ignored_witness :
    1 ≤ 2 ∧
    (create_dataset (fun n => n) (fun n => n) 2 1
        (⟨ConfigFile.corrupt, []⟩ : DataDir Nat) =
      create_dataset (fun n => n) (fun n => n) 2 1
        ⟨ConfigFile.missing, []⟩ ∧
    (create_dataset (fun n => n) (fun n => n) 2 1
        (⟨ConfigFile.corrupt, []⟩ : DataDir Nat)).panicked = none) :=
  ⟨by decide,
    c8_corrupt_config_ignored (fun n => n) (fun n => n) 1 2 [] (by decide)⟩

/-- Counterexample to claim C1: with the exclusive/sequential generator
`n ↦ n`, `length = 5` and a block size probing to 2, the Cache returns
item `3` for global index `2` — not the 2nd generated item (which is
`2`).  The remainder block is generated right after block `0` but is
served as the last indices, so read-back differs from generation order
even for the sequential variant. -/
theorem c1_counterexample :
    dsGetValue (openBuiltD (fun n => n) (fun n => n) 5 2 1)
      (initCache Nat) 2 = Except.ok (some 3) ∧
    (fun n : Nat => n) 2 = 2 ∧
    Except.ok (some 3) ≠ (Except.ok (some 2) : Except GetPanic (Option Nat)) := by
  refine ⟨rfl, rfl, ?_⟩
  intro h
  injection h with h1
  injection h1 with h2
  exact absurd h2 (by decide)

/-- Claim C1 as amended: after a completed sequential build on a clean
directory (reader opened with at least one cached block), `get i` returns
the generated item `buildIndex bs small remaining i` — the identity on
block `0`, shifted by the remainder-block size `small` on the full
blocks, and mapped back to right after block `0` on the trailing
remainder block.  Read-back over `0..length` is therefore a permutation
of the generated items even for the exclusive/sequential variant, and it
equals generation order exactly when no remainder block exists
(`small = 0`). -/
theorem c1_sequential_readback (g : Nat → α) (ssize : Nat → Nat)
    (budget length k : Nat) (bs small remaining bc : Nat)
    (hbs : bs = probeBlockSize ssize budget length 0)
    (hsmall : small = (length - bs) % bs)
    (hrem : remaining = (length - bs) / bs)
    (hbc : bc = if 0 < small then remaining + 2 else remaining + 1)
    (hlen : 1 ≤ length) (hk : 1 ≤ k) (ds : AcademyDataset α)
    (hds : openDataset
        (create_dataset g ssize length budget (cleanDir α)).dir k =
      some ds) :
    (∀ accesses idx, idx < length →
      ∃ st st', runGets ds accesses (initCache α) = Except.ok st ∧
        dsGet ds st idx =
          Except.ok (some (g (buildIndex bs small remaining idx)), st')) ∧
    ((List.range length).map
        (fun i => g (buildIndex bs small remaining i))).Perm
      ((List.range length).map g) ∧
    (small = 0 →
      ∀ idx, idx < length → buildIndex bs small remaining idx = idx) := by
  obtain ⟨hdbs, hdbc, hdlen, hdk, hGood, hreadin, hreadout⟩ :=
    builtDataset_spec g ssize budget length k bs small remaining bc
      hbs hsmall hrem hbc hlen ds hds
  have hk' : 1 ≤ ds.max_cached_blocks := by rw [hdk]; exact hk
  obtain ⟨hbs1, hbs2⟩ := probeBlockSize_bounds ssize budget length hlen
  rw [← hbs] at hbs1 hbs2
  have hdm := Nat.div_add_mod (length - bs) bs
  rw [← hrem, ← hsmall] at hdm
  have hmul : remaining * bs = bs * remaining := by ring
  have hlen2 : length = bs + small + remaining * bs := by
    rw [hmul]
    omega
  have hsmbs : small < bs := by
    rw [hsmall]
    exact Nat.mod_lt _ (by omega)
  refine ⟨?_, ?_, ?_⟩
  · intro accesses idx hidx
    obtain ⟨st, hrun, hinv⟩ := runGets_spec ds hGood hk' accesses []
      (initCache α) (cacheInv_init ds)
    obtain ⟨st', hget, -⟩ := dsGet_spec ds hGood hk' accesses st
      (by simpa using hinv) idx
    refine ⟨st, st', hrun, ?_⟩
    rw [hget, hreadin idx hidx]
  · have hperm := buildIndex_perm bs small remaining length hbs1 hsmbs hlen2
    have hmap := hperm.map g
    simpa [Function.comp] using hmap
  · intro hsm0 idx hidx
    have hup : length ≤ (remaining + 1) * bs := by
      have hx : (remaining + 1) * bs = bs + remaining * bs := by ring
      omega
    rw [buildIndex]
    split_ifs with h1 h2
    · rfl
    · omega
    · omega

/-- Witness for C1 (amended) at `g = id`, `length = 5`, `budget = 2`
(`block_size = 2`, `small = 1`, `remaining = 1`), reader budget 1. -/
theorem c1_sequential_readback_witness :
    1 ≤ 5 ∧ 1 ≤ 1 ∧
    ((∀ accesses idx, idx < 5 →
      ∃ st st', runGets (openBuiltD (fun n => n) (fun n => n) 5 2 1)
          accesses (initCache Nat) = Except.ok st ∧
        dsGet (openBuiltD (fun n => n) (fun n => n) 5 2 1) st idx =
          Except.ok (some ((fun n => n) (buildIndex 2 1 1 idx)), st')) ∧
    ((List.range 5).map (fun i => (fun n => n) (buildIndex 2 1 1 i))).Perm
      ((List.range 5).map (fun n => n)) ∧
    (1 = 0 → ∀ idx, idx < 5 → buildIndex 2 1 1 idx = idx)) :=
  ⟨by decide, by decide,
    c1_sequential_readback (fun n => n) (fun n => n) 2 5 1 2 1 1 3
      rfl rfl rfl rfl (by decide) (by decide)
      (openBuiltD (fun n => n) (fun n => n) 5 2 1) rfl⟩

/-- Counterexample to claim C2: `AcademyDataset::new` takes
`max_cached_blocks` directly (no `max(budget / block_memory_size, 1)`
derivation), so a Cache opened with `max_cached_blocks = 0` exists and
its very first miss panics popping the empty LRU ledger. -/
theorem c2_counterexample :
    dsGetValue (openBuiltD (fun n => n) (fun n => n) 3 2 0)
      (initCache Nat) 0 = Except.error GetPanic.popEmpty ∧
    (openBuiltD (fun n => n) (fun n => n) 3 2 0).max_cached_blocks = 0 :=
  ⟨rfl, rfl⟩

/-- Claim C2 as amended: the reader takes `max_cached_blocks` directly
from its caller; whenever `max_cached_blocks ≥ 1`, no sequence of `get`
calls on a good directory ever fails on a miss (the ledger is non-empty
whenever eviction triggers). -/
theorem c2_min_one_block (ds : AcademyDataset α) (hGood : GoodDS ds)
    (hk : 1 ≤ ds.max_cached_blocks) (accesses : List Nat) :
    ∃ st, runGets ds accesses (initCache α) = Except.ok st := by
  obtain ⟨st, h, -⟩ := runGets_spec ds hGood hk accesses [] (initCache α)
    (cacheInv_init ds)
  exact ⟨st, h⟩

/-- Witness for C2 (amended): the built `length = 5` dataset with
`max_cached_blocks = 1`, driven through all five blocks twice. -/
theorem c2_min_one_block_witness :
    GoodDS (openBuiltD (fun n => n) (fun n => n) 5 2 1) ∧
    1 ≤ (openBuiltD (fun n => n) (fun n => n) 5 2 1).max_cached_blocks ∧
    ∃ st, runGets (openBuiltD (fun n => n) (fun n => n) 5 2 1)
      [0, 2, 4, 1, 3, 0, 2, 4] (initCache Nat) = Except.ok st := by
  have hGood : GoodDS (openBuiltD (fun n => n) (fun n => n) 5 2 1) :=
    (builtDataset_spec (fun n => n) (fun n => n) 2 5 1 2 1 1 3
      rfl rfl rfl rfl (by decide)
      (openBuiltD (fun n => n) (fun n => n) 5 2 1) rfl).2.2.2.2.1
  exact ⟨hGood, by decide,
    c2_min_one_block (openBuiltD (fun n => n) (fun n => n) 5 2 1) hGood
      (by decide) [0, 2, 4, 1, 3, 0, 2, 4]⟩

/-- Counterexample to claim C4: on a completed build of `length = 3`
(`block_size = 2`, so a trailing small block exists), a Cache opened with
`max_cached_blocks = 0` panics on `get 3` even though `3 ≥ length` — the
out-of-range index maps into the trailing slot, misses, and eviction pops
the empty ledger instead of returning `None`. -/
theorem c4_counterexample :
    dsGetValue (openBuiltD (fun n => n) (fun n => n) 3 2 0)
      (initCache Nat) 3 = Except.error GetPanic.popEmpty ∧
    dsLen (openBuiltD (fun n => n) (fun n => n) 3 2 0) = 3 ∧
    dsLen (openBuiltD (fun n => n) (fun n => n) 3 2 0) ≤ 3 :=
  ⟨rfl, rfl, by decide⟩

/-- Claim C4 as amended: for a Cache opened on a completed build with
`max_cached_blocks ≥ 1`, `get idx` returns `None` without a panic for
every `idx ≥ length`, from any state reachable by prior `get` calls, and
`len()` returns the manifest's `length`. -/
theorem c4_out_of_range_none (g : Nat → α) (ssize : Nat → Nat)
    (budget length k : Nat) (hlen : 1 ≤ length) (hk : 1 ≤ k)
    (ds : AcademyDataset α)
    (hds : openDataset
        (create_dataset g ssize length budget (cleanDir α)).dir k =
      some ds) :
    dsLen ds = length ∧
    (∀ accesses idx, length ≤ idx →
      ∃ st st', runGets ds accesses (initCache α) = Except.ok st ∧
        dsGet ds st idx = Except.ok (none, st')) := by
  obtain ⟨hdbs, hdbc, hdlen, hdk, hGood, hreadin, hreadout⟩ :=
    builtDataset_spec g ssize budget length k _ _ _ _ rfl rfl rfl rfl
      hlen ds hds
  have hk' : 1 ≤ ds.max_cached_blocks := by rw [hdk]; exact hk
  refine ⟨by rw [dsLen, hdlen], ?_⟩
  intro accesses idx hidx
  obtain ⟨st, hrun, hinv⟩ := runGets_spec ds hGood hk' accesses []
    (initCache α) (cacheInv_init ds)
  obtain ⟨st', hget, -⟩ := dsGet_spec ds hGood hk' accesses st
    (by simpa using hinv) idx
  refine ⟨st, st', hrun, ?_⟩
  rw [hget, hreadout idx hidx]

/-- Witness for C4 (amended) at `length = 3`, reader budget 1: both an
in-padding index (3) and a far index (100). -/
theorem c4_out_of_range_none_witness :
    1 ≤ 3 ∧ 1 ≤ 1 ∧
    (dsLen (openBuiltD (fun n => n) (fun n => n) 3 2 1) = 3 ∧
    (∀ accesses idx, 3 ≤ idx →
      ∃ st st', runGets (openBuiltD (fun n => n) (fun n => n) 3 2 1)
          accesses (initCache Nat) = Except.ok st ∧
        dsGet (openBuiltD (fun n => n) (fun n => n) 3 2 1) st idx =
          Except.ok (none, st'))) :=
  ⟨by decide, by decide,
    c4_out_of_range_none (fun n => n) (fun n => n) 2 3 1 (by decide)
      (by decide) (openBuiltD (fun n => n) (fun n => n) 3 2 1) rfl⟩

/-- Claim C5: on a good dataset with `max_cached_blocks = k ≥ 1`, after
any (single-threaded) sequence of `get` calls: the LRU ledger is exactly
the `k` most-recently-touched distinct block indices (most recent first);
at most `k` slots are resident and the resident set is exactly the
ledger; `mruFold` counts exactly the distinct touched blocks, so touching
more than `k` distinct blocks fills the ledger to exactly `k`; every
resident block appears exactly once in the ledger and vice versa; and
every further `get` (hit or miss) leaves its block at the
most-recently-used position. -/
theorem c5_lru_exact (ds : AcademyDataset α) (hGood : GoodDS ds)
    (hk : 1 ≤ ds.max_cached_blocks) (accesses : List Nat) :
    ∃ st, runGets ds accesses (initCache α) = Except.ok st ∧
      st.ledger =
        (mruFold (touchedBlocks ds accesses)).take ds.max_cached_blocks ∧
      st.ledger.length ≤ ds.max_cached_blocks ∧
      st.ledger.Nodup ∧
      (∀ b, b ∈ st.ledger ↔ st.slots b ≠ []) ∧
      (mruFold (touchedBlocks ds accesses)).length =
        (touchedBlocks ds accesses).dedup.length ∧
      (ds.max_cached_blocks < (mruFold (touchedBlocks ds accesses)).length →
        st.ledger.length = ds.max_cached_blocks) ∧
      (∀ idx, idx / ds.block_size < ds.block_count →
        ∃ st2, runGets ds (accesses ++ [idx]) (initCache α) =
            Except.ok st2 ∧
          st2.ledger.head? = some (idx / ds.block_size)) := by
  obtain ⟨st, hrun, hinv⟩ := runGets_spec ds hGood hk accesses []
    (initCache α) (cacheInv_init ds)
  have hinv' : CacheInv ds accesses st := by simpa using hinv
  obtain ⟨hled, hmem, hcont⟩ := hinv'
  refine ⟨st, hrun, hled, ?_, ?_, hmem, mruFold_length_dedup _, ?_, ?_⟩
  · rw [hled]
    exact List.length_take_le _ _
  · rw [hled]
    exact (List.take_sublist _ _).nodup (mruFold_nodup _)
  · intro hgt
    rw [hled, List.length_take]
    omega
  · intro idx hbi
    obtain ⟨st2, hrun2, hinv2⟩ := runGets_spec ds hGood hk
      (accesses ++ [idx]) [] (initCache α) (cacheInv_init ds)
    refine ⟨st2, hrun2, ?_⟩
    have hled2 := (by simpa using hinv2 : CacheInv ds (accesses ++ [idx]) st2).1
    rw [hled2, touchedBlocks_append, if_pos hbi, mruFold_append,
      show ds.max_cached_blocks = (ds.max_cached_blocks - 1) + 1 by omega,
      List.take_succ_cons]
    rfl

/-- Witness for C5 at the built `length = 5` dataset (three blocks),
`max_cached_blocks = 1`, touching blocks 0, 1, 2 then 0 again. -/
theorem c5_lru_exact_witness :
    GoodDS (openBuiltD (fun n => n) (fun n => n) 5 2 1) ∧
    1 ≤ (openBuiltD (fun n => n) (fun n => n) 5 2 1).max_cached_blocks ∧
    ∃ st, runGets (openBuiltD (fun n => n) (fun n => n) 5 2 1)
        [0, 2, 4, 0] (initCache Nat) = Except.ok st ∧
      st.ledger = (mruFold (touchedBlocks
          (openBuiltD (fun n => n) (fun n => n) 5 2 1) [0, 2, 4, 0])).take
        (openBuiltD (fun n => n) (fun n => n) 5 2 1).max_cached_blocks ∧
      st.ledger.length ≤
        (openBuiltD (fun n => n) (fun n => n) 5 2 1).max_cached_blocks ∧
      st.ledger.Nodup ∧
      (∀ b, b ∈ st.ledger ↔ st.slots b ≠ []) ∧
      (mruFold (touchedBlocks
          (openBuiltD (fun n => n) (fun n => n) 5 2 1) [0, 2, 4, 0])).length =
        (touchedBlocks (openBuiltD (fun n => n) (fun n => n) 5 2 1)
          [0, 2, 4, 0]).dedup.length ∧
      ((openBuiltD (fun n => n) (fun n => n) 5 2 1).max_cached_blocks <
          (mruFold (touchedBlocks
            (openBuiltD (fun n => n) (fun n => n) 5 2 1) [0, 2, 4, 0])).length →
        st.ledger.length =
          (openBuiltD (fun n => n) (fun n => n) 5 2 1).max_cached_blocks) ∧
      (∀ idx, idx / (openBuiltD (fun n => n) (fun n => n) 5 2 1).block_size <
          (openBuiltD (fun n => n) (fun n => n) 5 2 1).block_count →
        ∃ st2, runGets (openBuiltD (fun n => n) (fun n => n) 5 2 1)
            ([0, 2, 4, 0] ++ [idx]) (initCache Nat) = Except.ok st2 ∧
          st2.ledger.head? = some
            (idx / (openBuiltD (fun n => n) (fun n => n) 5 2 1).block_size)) := by
  have hGood : GoodDS (openBuiltD (fun n => n) (fun n => n) 5 2 1) :=
    (builtDataset_spec (fun n => n) (fun n => n) 2 5 1 2 1 1 3
      rfl rfl rfl rfl (by decide)
      (openBuiltD (fun n => n) (fun n => n) 5 2 1) rfl).2.2.2.2.1
  exact ⟨hGood, by decide,
    c5_lru_exact (openBuiltD (fun n => n) (fun n => n) 5 2 1) hGood
      (by decide) [0, 2, 4, 0]⟩

/-- Counterexample to claim C9: on a miss that evicts victim slot 1 while
loading slot 0, the statement clearing the victim (lines 60-67) holds the
victim slot's lock together with the loading slot's lock and the ledger
lock — three locks, so it is not true that at any instant only the
loading slot's lock and the ledger lock are held together. -/
theorem c9_counterexample :
    ¬ ∀ e ∈ getMissEvictTrace 0 1, ∀ l ∈ e.2,
        l = LockId.slot 0 ∨ l = LockId.ledger := by
  decide

/-- Claim C9 as amended: during a miss that evicts, every lock held at any
step is among the loading slot's lock, the ledger lock and the victim
slot's lock; the victim slot's lock is held only during the one statement
that clears it; the disk read happens exactly once per miss and holds
exactly the loading slot's lock and the ledger lock. -/
theorem c9_lock_trace (bi v : Nat) :
    (∀ e ∈ getMissEvictTrace bi v, ∀ l ∈ e.2,
      l = LockId.slot bi ∨ l = LockId.ledger ∨ l = LockId.slot v) ∧
    (∀ e ∈ getMissEvictTrace bi v,
      e.1 = CacheEvent.clearVictim v ∨
        ∀ l ∈ e.2, l = LockId.slot bi ∨ l = LockId.ledger) ∧
    ((getMissEvictTrace bi v).filter (fun e => isDiskLoad e.1)).length = 1 ∧
    (∀ e ∈ getMissEvictTrace bi v, e.1 = CacheEvent.diskLoad bi →
      e.2 = [LockId.slot bi, LockId.ledger]) := by
  refine ⟨?_, ?_, rfl, ?_⟩
  · intro e he
    fin_cases he <;> (intro l hl; fin_cases hl <;> simp)
  · intro e he
    fin_cases he
    · exact Or.inr (by intro l hl; fin_cases hl <;> simp)
    · exact Or.inr (by intro l hl; fin_cases hl <;> simp)
    · exact Or.inl rfl
    · exact Or.inr (by intro l hl; fin_cases hl <;> simp)
    · exact Or.inr (by intro l hl; fin_cases hl <;> simp)
    · exact Or.inr (by intro l hl; fin_cases hl <;> simp)
  · intro e he
    fin_cases he <;> intro h <;> simp_all

end MachineAcademy
